import Mathlib

/-!
Verification of the sensitive-word filter in `src/index.ts`
(trie construction, failure links, exact Aho-Corasick-style scan,
fuzzy scan with bounded skips).

Modelling conventions:
* A JavaScript string is a list of UTF-16 code units (`List Nat`).
* The `for (const char of text)` iteration yields code points; each yielded
  character is itself a short string (one unit, or two units for a
  surrogate pair).  `codePointsOf` performs this decomposition.
* Trie nodes are identified by their path from the root (the list of
  character keys on the way down); the root is `[]`.  The mutable
  `fail` pointers computed by `buildFailPointers` are modelled by the
  function `failP`, which computes, for a node path, the path its fail
  pointer ends at after construction completes (the per-node value the
  breadth-first pass assigns; BFS order only fixes evaluation order).
* Bounded loops of the source are written with an explicit fuel argument
  so that every definition is structurally recursive and computable by
  the kernel; each wrapper passes fuel provably larger than the number
  of iterations the source loop performs.
-/

namespace SWF

/-- Trie node of `src/index.ts` (`class TrieNode`): children as an
insertion-ordered association list (JS `Map`), the `end` flag, and the
stored `length` field (the matched word's `word.length`, i.e. its UTF-16
unit count).  The `fail` pointer is not stored; it is recomputed by
`failP` below. -/
inductive Trie (α : Type) : Type where
  | node (children : List (α × Trie α)) (isEnd : Bool) (len : Nat) : Trie α

variable {α : Type} [DecidableEq α]

def Trie.children : Trie α → List (α × Trie α)
  | .node cs _ _ => cs

def Trie.isEnd : Trie α → Bool
  | .node _ e _ => e

def Trie.len : Trie α → Nat
  | .node _ _ l => l

/-- Fresh node, `new TrieNode()`. -/
def Trie.empty : Trie α := .node [] false 0

/-- JS `Map.get`. -/
def lookupChild : List (α × Trie α) → α → Option (Trie α)
  | [], _ => none
  | (k, u) :: rest, c => if k = c then some u else lookupChild rest c

/-- JS `Map.set`: replace in place if the key exists, else append
(insertion order preserved). -/
def setChild : List (α × Trie α) → α → Trie α → List (α × Trie α)
  | [], c, u => [(c, u)]
  | (k, v) :: rest, c, u =>
      if k = c then (k, u) :: rest else (k, v) :: setChild rest c u

/-- `TrieNode.addWord` on the character decomposition of a word: walk or
extend the trie one character at a time; at the end set `end := true`
and `length := len` (the caller passes the word's unit length). -/
def addWord (t : Trie α) : List α → Nat → Trie α
  | [], len => .node t.children true len
  | c :: w, len =>
      let child := (lookupChild t.children c).getD Trie.empty
      .node (setChild t.children c (addWord child w len)) t.isEnd t.len

/-- Node lookup by path. -/
def findNode (t : Trie α) : List α → Option (Trie α)
  | [] => some t
  | c :: p =>
      match lookupChild t.children c with
      | some u => findNode u p
      | none => none

/-- The path `p` names a node of the trie. -/
def isNode (t : Trie α) (p : List α) : Bool := (findNode t p).isSome

/-- `node.children.has c` at the node named by `p`. -/
def hasChild (t : Trie α) (p : List α) (c : α) : Bool :=
  (findNode t (p ++ [c])).isSome

/-- The `end` flag at path `p` (false off the trie). -/
def endAt (t : Trie α) (p : List α) : Bool :=
  match findNode t p with
  | some u => u.isEnd
  | none => false

/-- The stored `length` field at path `p` (0 off the trie). -/
def lenAt (t : Trie α) (p : List α) : Nat :=
  match findNode t p with
  | some u => u.len
  | none => 0

/-- The `while (fail !== null && !fail.children.has(char)) fail = fail.fail`
loop of `buildFailPointers`, followed by
`childNode.fail = fail ? (fail.children.get(char) || null) : this`.
`fl` is the fail-pointer function for the (strictly shorter) paths the
chain visits; `none` models the JS `null` (the root's fail).  The walk
fuel exceeds the chain length at every call site. -/
def failWalk (t : Trie α) (fl : List α → Option (List α)) :
    Nat → List α → α → List α
  | 0, _, _ => []
  | w + 1, f, c =>
      if hasChild t f c then f ++ [c]
      else
        match fl f with
        | none => []
        | some f1 => failWalk t fl w f1 c

/-- Fail pointer assigned by `buildFailPointers` to the node named by a
path, as a function of the fail pointers of strictly shorter paths
(which the BFS pass has already finalized when the node is processed):
the root keeps `fail = null` (`none`); a child of the root gets the
root; any deeper node `q ++ [c]` walks the fail chain of its parent `q`.
Structured by fuel; `fuel ≥ path length` reproduces the source. -/
def failF (t : Trie α) : Nat → List α → Option (List α)
  | 0, _ => none
  | fuel + 1, p =>
      if p = [] then none
      else if p.dropLast = [] then some []
      else
        match p.getLast?, failF t fuel p.dropLast with
        | some c, some f0 =>
            some (failWalk t (failF t fuel) (f0.length + 1) f0 c)
        | _, _ => some []

/-- Fail pointer of the node named by `p` once construction completed. -/
def failP (t : Trie α) (p : List α) : Option (List α) :=
  failF t p.length p

/-- Fail pointer with the root mapped to itself (the scanners only ever
dereference it at non-root nodes, where it is never `null`). -/
def failD (t : Trie α) (p : List α) : List α := (failP t p).getD []

/-- The fallback loop of `findSensitiveWords`:
`while (node !== this.root && !node.children.has(char)) node = node.fail!`.
Fuel bounds the iteration count; `fuel ≥ p.length` suffices because each
fail step strictly decreases the node's depth. -/
def descendF (t : Trie α) : Nat → List α → α → List α
  | 0, p, _ => p
  | d + 1, p, c =>
      if p = [] ∨ hasChild t p c then p
      else descendF t d (failD t p) c

/-- One character step of the exact scanner:
fallback loop, then `node = node.children.get(char) || this.root`. -/
def scanStep (t : Trie α) (p : List α) (c : α) : List α :=
  let p1 := descendF t p.length p c
  if hasChild t p1 c then p1 ++ [c] else []

/-- The match-collection loop of `findSensitiveWords`:
`tempNode = node; while (tempNode !== this.root) { if (tempNode.end) push ...; tempNode = tempNode.fail! }`.
Returns the paths of the terminal nodes visited, in visit order (deepest
first).  Fuel `≥ p.length` suffices. -/
def collectF (t : Trie α) : Nat → List α → List (List α)
  | _, [] => []
  | 0, _ :: _ => []
  | f + 1, p =>
      (if endAt t p then [p] else []) ++ collectF t f (failD t p)

/-- The main loop of `findSensitiveWords` over the character stream,
emitting `(currentIndex, terminal-node path)` pairs in push order. -/
def scanGo (t : Trie α) : List α → List α → Nat → List (Nat × List α)
  | [], _, _ => []
  | c :: cs, p, i =>
      let p' := scanStep t p c
      (collectF t p'.length p').map (fun q => (i, q)) ++ scanGo t cs p' (i + 1)

end SWF

namespace SWF

/-! JS string layer: code units, code points, `String.prototype.substring`. -/

/-- High surrogate code unit (U+D800..U+DBFF). -/
def isHighSurr (u : Nat) : Bool := 55296 ≤ u && u ≤ 56319

/-- Low surrogate code unit (U+DC00..U+DFFF). -/
def isLowSurr (u : Nat) : Bool := 56320 ≤ u && u ≤ 57343

/-- JS string iteration (`for (const char of s)`): splits a list of UTF-16
code units into the strings the string iterator yields — a surrogate
pair as a two-unit string, anything else (including a lone surrogate)
as a one-unit string. -/
def codePointsOf : List Nat → List (List Nat)
  | [] => []
  | [u] => [[u]]
  | u :: v :: rest =>
      if isHighSurr u && isLowSurr v then [u, v] :: codePointsOf rest
      else [u] :: codePointsOf (v :: rest)

/-- `s.substring(a, b)` of ECMAScript: both arguments clamped to
`[0, s.length]`, then swapped if out of order. -/
def jsSubstring (s : List Nat) (a b : Int) : List Nat :=
  let n : Int := s.length
  let a' := min (max a 0) n
  let b' := min (max b 0) n
  let lo := min a' b'
  let hi := max a' b'
  (s.take hi.toNat).drop lo.toNat

/-- A reported match `{ word, start, end }`.  `start` is an `Int` because
`currentIndex - wordLength + 1` can be negative in JS; `endPos` models
the `end` field (a Lean keyword). -/
structure Match where
  word : List Nat
  start : Int
  endPos : Nat
deriving DecidableEq, Repr

/-- Dictionary insertion: `addWord` is called on the words in order; each
word is iterated by code point and its stored length is `word.length`
(its unit count).  `buildFailPointers` is modelled separately by `failP`. -/
def buildTrie (dict : List (List Nat)) : Trie (List Nat) :=
  dict.foldl (fun t w => addWord t (codePointsOf w) w.length) .empty

/-- `SensitiveWordFilter.findSensitiveWords`: stream the code points of
`text` through the automaton; for every terminal node on the fail chain
of the current node push
`{ word: text.substring(currentIndex - wordLength + 1, currentIndex + 1),
   start: currentIndex - wordLength + 1, end: currentIndex }`
(`currentIndex` counts code points, `wordLength` is the stored unit
count, `substring` slices code units — exactly as the source does). -/
def findSensitiveWords (t : Trie (List Nat)) (text : List Nat) : List Match :=
  (scanGo t (codePointsOf text) [] 0).map fun iq =>
    { word := jsSubstring text ((iq.1 : Int) - lenAt t iq.2 + 1) ((iq.1 : Int) + 1)
      start := (iq.1 : Int) - lenAt t iq.2 + 1
      endPos := iq.1 }

/-! Fuzzy scanner.  It iterates the text by raw code unit (`text[j]`),
so each trie lookup uses the one-unit string `[u]` as key.  It never
reads a fail pointer. -/

/-- Inner loop of `findSensitiveWordsFuzzy` from start position `i`:
state is the current node path `p`, `pend` (`potentialEnd`), `skipped`,
and the scan position `j`.  Returns `some potentialEnd` when a terminal
node is reached (the `break` after pushing a match), `none` when the
start is abandoned.  Fuel `text.length - j` reproduces the
`for (j = i; j < text.length; j++)` loop. -/
def fuzzyFromF (t : Trie (List Nat)) (text : List Nat) (maxSkip : Int) :
    Nat → List (List Nat) → Nat → Nat → Nat → Option Nat
  | 0, _, _, _, _ => none
  | fuel + 1, p, pend, skipped, j =>
      match text.get? j with
      | none => none
      | some u =>
          if hasChild t p [u] then
            let p' := p ++ [[u]]
            if endAt t p' then some j
            else fuzzyFromF t text maxSkip fuel p' j 0 (j + 1)
          else if p ≠ [] ∧ (skipped : Int) < maxSkip then
            fuzzyFromF t text maxSkip fuel p pend (skipped + 1) (j + 1)
          else none

/-- Candidate scan from start `i` (`currentNode = root`, `matchStart = i`,
`potentialEnd = i`, `skipped = 0`). -/
def fuzzyFrom (t : Trie (List Nat)) (text : List Nat) (maxSkip : Int)
    (i : Nat) : Option Nat :=
  fuzzyFromF t text maxSkip (text.length - i) [] i 0 i

/-- Mark `activeRegions[k] = 1` for `k` in `[s, e]` (the loop after a
fuzzy match is pushed), keeping indices in place. -/
def markRangeAux : List Bool → Nat → Nat → Nat → List Bool
  | [], _, _, _ => []
  | b :: rest, k, s, e =>
      (if s ≤ k ∧ k ≤ e then true else b) :: markRangeAux rest (k + 1) s e

def markRange (consumed : List Bool) (s e : Nat) : List Bool :=
  markRangeAux consumed 0 s e

/-- Outer loop of `findSensitiveWordsFuzzy` over start positions, with
the `activeRegions` consumed markers (`true` = 1).  On a match from `i`
ending at `e` it pushes
`{ word: text.substring(i, e + 1), start: i, end: e }`, marks `i..e`
consumed and moves to the next start.  Fuel `text.length - i`. -/
def fuzzyOuterF (t : Trie (List Nat)) (text : List Nat) (maxSkip : Int) :
    Nat → List Bool → Nat → List Match
  | 0, _, _ => []
  | fuel + 1, consumed, i =>
      if i < text.length then
        if consumed.getD i false then fuzzyOuterF t text maxSkip fuel consumed (i + 1)
        else
          match fuzzyFrom t text maxSkip i with
          | some e =>
              { word := jsSubstring text (i : Int) ((e : Int) + 1)
                start := (i : Int), endPos := e } ::
                fuzzyOuterF t text maxSkip fuel (markRange consumed i e) (i + 1)
          | none => fuzzyOuterF t text maxSkip fuel consumed (i + 1)
      else []

/-- `SensitiveWordFilter.findSensitiveWordsFuzzy(text, maxSkip)`. -/
def findSensitiveWordsFuzzy (t : Trie (List Nat)) (text : List Nat)
    (maxSkip : Int) : List Match :=
  fuzzyOuterF t text maxSkip text.length
    (List.replicate text.length false) 0

/-! Exact scan on an automaton whose `buildFailPointers` has NOT run:
every `fail` field still holds its initial `null`.  In JS, reading a
field of `null` throws a TypeError, which aborts the call; `none`
models the thrown call. -/

/-- One character step of `findSensitiveWords` with all fail pointers
`null`.  If the fallback loop is entered at all (`node !== root` and no
transition), `node = node.fail!` sets `node` to `null` and the loop's
re-check `node.children.has(char)` throws.  Otherwise the scanner moves
to `node.children.get(char) || root`; if that node is not the root, the
match-collection loop reads its `end` flag (possibly pushing a match),
then `tempNode = tempNode.fail!` sets `tempNode` to `null` and the
re-check `tempNode.end` throws, discarding the pushed matches with the
call.  Only a step that stays at the root completes. -/
def scanUnbuiltStep (t : Trie (List Nat)) (p : List (List Nat))
    (c : List Nat) : Option (List (List Nat)) :=
  if p = [] ∨ hasChild t p c then
    let p1 := if hasChild t p c then p ++ [c] else []
    if p1 = [] then some [] else none
  else none

def scanUnbuiltGo (t : Trie (List Nat)) :
    List (List Nat) → List (List Nat) → Option (List Match)
  | [], _ => some []
  | c :: cs, p =>
      match scanUnbuiltStep t p c with
      | some p' => scanUnbuiltGo t cs p'
      | none => none

/-- `findSensitiveWords` called before `buildFailPointers` (e.g. before
`loadSensitiveWords` finishes): `some ms` models a normal return with
match list `ms`, `none` a thrown TypeError. -/
def findSensitiveWordsUnbuilt (t : Trie (List Nat)) (text : List Nat) :
    Option (List Match) :=
  scanUnbuiltGo t (codePointsOf text) []

/-- Longest suffix of `l` that is a node of the trie (specification-side
notion used to characterise the scanner state; `[]` is always a node). -/
def msn (t : Trie (List Nat)) : List (List Nat) → List (List Nat)
  | [] => []
  | a :: l => if isNode t (a :: l) then a :: l else msn t l

/-- A unit string without high surrogates: its `for...of` iteration
yields exactly one single-unit character per unit, so code points and
code units coincide. -/
def NoSurr (s : List Nat) : Prop := ∀ u ∈ s, isHighSurr u = false

instance (s : List Nat) : Decidable (NoSurr s) :=
  inferInstanceAs (Decidable (∀ u ∈ s, isHighSurr u = false))

/-- Instrumented version of `fuzzyFromF` that also records the list of
text positions consumed by trie transitions (the automaton-matched
characters of the candidate match); `ms` is the accumulator. -/
def fuzzyFromTF (t : Trie (List Nat)) (text : List Nat) (maxSkip : Int) :
    Nat → List (List Nat) → Nat → Nat → Nat → List Nat → Option (List Nat)
  | 0, _, _, _, _, _ => none
  | fuel + 1, p, pend, skipped, j, ms =>
      match text.get? j with
      | none => none
      | some u =>
          if hasChild t p [u] then
            let p' := p ++ [[u]]
            if endAt t p' then some (ms ++ [j])
            else fuzzyFromTF t text maxSkip fuel p' j 0 (j + 1) (ms ++ [j])
          else if p ≠ [] ∧ (skipped : Int) < maxSkip then
            fuzzyFromTF t text maxSkip fuel p pend (skipped + 1) (j + 1) ms
          else none

/-- Positions consumed by trie transitions during the (accepted)
candidate scan started at `i`. -/
def fuzzyTrace (t : Trie (List Nat)) (text : List Nat) (maxSkip : Int)
    (i : Nat) : Option (List Nat) :=
  fuzzyFromTF t text maxSkip (text.length - i) [] i 0 i []

end SWF

-- Sanity checks against the spec's concrete scenarios.
-- dictionary {"abc","bcd"}, text "xabcdy":
example :
    SWF.findSensitiveWords (SWF.buildTrie [[97, 98, 99], [98, 99, 100]])
      [120, 97, 98, 99, 100, 121] =
    [⟨[97, 98, 99], 1, 3⟩, ⟨[98, 99, 100], 2, 4⟩] := by decide

-- dictionary {"kill"}, text "k1i2l3l", maxSkip 1 and 0:
example :
    SWF.findSensitiveWordsFuzzy
      (SWF.buildTrie [[107, 105, 108, 108]])
      [107, 49, 105, 50, 108, 51, 108] 1 =
    [⟨[107, 49, 105, 50, 108, 51, 108], 0, 6⟩] := by decide

example :
    SWF.findSensitiveWordsFuzzy
      (SWF.buildTrie [[107, 105, 108, 108]])
      [107, 49, 105, 50, 108, 51, 108] 0 = [] := by decide

-- dictionary {"he","she"}, text "she" (overlap completeness):
example :
    SWF.findSensitiveWords (SWF.buildTrie [[104, 101], [115, 104, 101]])
      [115, 104, 101] =
    [⟨[115, 104, 101], 0, 2⟩, ⟨[104, 101], 1, 2⟩] := by decide

namespace SWF

/-! ### Scans on an automaton without built failure links (claim C7) -/

theorem scanUnbuiltGo_eq (t : Trie (List Nat)) :
    ∀ cs : List (List Nat),
      scanUnbuiltGo t cs [] =
        (if cs.all (fun c => !hasChild t [] c) then some [] else none)
  | [] => by simp [scanUnbuiltGo]
  | c :: cs => by
      by_cases h : hasChild t [] c
      · simp [scanUnbuiltGo, scanUnbuiltStep, h]
      · simp [scanUnbuiltGo, scanUnbuiltStep, h, scanUnbuiltGo_eq t cs]

/-! ### Negative maxSkip (claim C8) -/

theorem fuzzyFromF_nonpos (t : Trie (List Nat)) (text : List Nat) {k : Int}
    (hk : k ≤ 0) :
    ∀ (fuel : Nat) (p : List (List Nat)) (pend skipped j : Nat),
      fuzzyFromF t text k fuel p pend skipped j =
        fuzzyFromF t text 0 fuel p pend skipped j
  | 0, _, _, _, _ => rfl
  | fuel + 1, p, pend, skipped, j => by
      have h1 : ¬ ((skipped : Int) < k) := by omega
      have h2 : ¬ ((skipped : Int) < 0) := by omega
      simp only [fuzzyFromF]
      cases text.get? j with
      | none => rfl
      | some u =>
          by_cases hc : hasChild t p [u]
          · simp only [hc, if_true]
            by_cases he : endAt t (p ++ [[u]])
            · simp [he]
            · simp only [he, if_false]
              exact fuzzyFromF_nonpos t text hk fuel _ _ _ _
          · simp [hc, h1, h2]

theorem fuzzyOuterF_nonpos (t : Trie (List Nat)) (text : List Nat) {k : Int}
    (hk : k ≤ 0) :
    ∀ (fuel : Nat) (consumed : List Bool) (i : Nat),
      fuzzyOuterF t text k fuel consumed i =
        fuzzyOuterF t text 0 fuel consumed i
  | 0, _, _ => rfl
  | fuel + 1, consumed, i => by
      simp only [fuzzyOuterF, fuzzyFrom, fuzzyFromF_nonpos t text hk]
      split
      · split
        · exact fuzzyOuterF_nonpos t text hk fuel _ _
        · cases fuzzyFromF t text 0 (text.length - i) [] i 0 i with
          | none => exact fuzzyOuterF_nonpos t text hk fuel _ _
          | some e => simp [fuzzyOuterF_nonpos t text hk fuel]
      · rfl

end SWF

namespace SWF

/-- C7 counterexample: a scan requested on an automaton whose failure-link
construction has not run does not signal any `NotBuilt` error: with
dictionary {"ab"} and text "xy" the exact scan proceeds and returns an
empty match list. -/
theorem unbuilt_scan_completes_without_error :
    findSensitiveWordsUnbuilt (buildTrie [[97, 98]]) [120, 121] = some [] := by
  decide

/-- C7 (amended): the code has no `NotBuilt` guard.  An exact scan on an
automaton with unset failure links proceeds: it returns normally (with an
empty match list) iff no character of the text has a transition out of the
root, and otherwise crashes with a null-dereference TypeError — in no case
is a `NotBuilt` error signalled.  (The fuzzy scanner reads no fail pointers
at all, so it runs normally on an unbuilt automaton; build-before-scan
ordering is left to the caller, as in `loadSensitiveWords`.) -/
theorem unbuilt_scan_no_notbuilt_guard (t : Trie (List Nat)) (text : List Nat) :
    findSensitiveWordsUnbuilt t text =
      (if (codePointsOf text).all (fun c => !hasChild t [] c) then some []
       else none) :=
  scanUnbuiltGo_eq t (codePointsOf text)

/-- C8 counterexample: with dictionary {"ab"}, text "ab" and `maxSkip = -1`
the fuzzy scan is not rejected before scanning: it proceeds and produces a
match sequence. -/
theorem fuzzy_negative_maxskip_not_rejected :
    findSensitiveWordsFuzzy (buildTrie [[97, 98]]) [97, 98] (-1) =
      [⟨[97, 98], 0, 1⟩] := by decide

/-- C8 (amended): a negative `maxSkip` is not rejected and no
`InvalidConfiguration` error exists; the call proceeds and behaves exactly
as `maxSkip = 0` (the guard `skipped < maxSkip` never fires for a negative
bound). -/
theorem fuzzy_negative_maxskip_behaves_as_zero (t : Trie (List Nat))
    (text : List Nat) (k : Int) (hk : k < 0) :
    findSensitiveWordsFuzzy t text k = findSensitiveWordsFuzzy t text 0 := by
  unfold findSensitiveWordsFuzzy
  exact fuzzyOuterF_nonpos t text (le_of_lt hk) _ _ _

/-- C8 witness: the amended behaviour at the concrete input
dictionary {"ab"}, text "ab", `maxSkip = -1`. -/
theorem fuzzy_negative_maxskip_witness :
    findSensitiveWordsFuzzy (buildTrie [[97, 98]]) [97, 98] (-1) =
      findSensitiveWordsFuzzy (buildTrie [[97, 98]]) [97, 98] 0 ∧
    findSensitiveWordsFuzzy (buildTrie [[97, 98]]) [97, 98] 0 =
      [⟨[97, 98], 0, 1⟩] :=
  ⟨fuzzy_negative_maxskip_behaves_as_zero _ _ _ (by decide), by decide⟩

end SWF

namespace SWF

/-! ### Structure of the computed failure links -/

variable {α : Type} [DecidableEq α]

theorem findNode_append (t : Trie α) :
    ∀ p q : List α,
      findNode t (p ++ q) = (findNode t p).bind fun u => findNode u q
  | [], _ => rfl
  | c :: p, q => by
      simp only [List.cons_append, findNode]
      cases lookupChild t.children c with
      | none => rfl
      | some u => exact findNode_append u p q

theorem isNode_nil (t : Trie α) : isNode t [] = true := rfl

theorem isNode_of_append {t : Trie α} {p q : List α}
    (h : isNode t (p ++ q) = true) : isNode t p = true := by
  unfold isNode at h ⊢
  rw [findNode_append] at h
  cases hf : findNode t p with
  | none => rw [hf] at h; simp at h
  | some u => simp

theorem hasChild_eq_isNode (t : Trie α) (p : List α) (c : α) :
    hasChild t p c = isNode t (p ++ [c]) := rfl

omit [DecidableEq α] in
theorem suffix_concat_self {s q : List α} (h : s <:+ q) (c : α) :
    s ++ [c] <:+ q ++ [c] := by
  obtain ⟨u, rfl⟩ := h
  exact ⟨u, (List.append_assoc u s [c]).symm⟩

omit [DecidableEq α] in
theorem suffix_concat_cases {s q : List α} {c : α} (h : s <:+ q ++ [c]) :
    s = [] ∨ ∃ s', s = s' ++ [c] ∧ s' <:+ q := by
  obtain ⟨u, hu⟩ := h
  rcases List.eq_nil_or_concat s with rfl | ⟨L, b, rfl⟩
  · exact Or.inl rfl
  · rw [List.concat_eq_append, ← List.append_assoc] at hu
    obtain ⟨h1, h2⟩ := List.append_inj' hu rfl
    obtain rfl : b = c := by simpa using h2
    exact Or.inr ⟨L, by rw [List.concat_eq_append], ⟨u, h1⟩⟩

theorem failF_nil (t : Trie α) : ∀ fuel, failF t fuel ([] : List α) = none
  | 0 => rfl
  | _ + 1 => by simp [failF]

/-- Behaviour of the chain walk of `buildFailPointers`: the result is the
root, or `g ++ [c]` for a chain element `g` (a suffix of the start that
is a node whenever the start is) holding a `c`-child. -/
theorem failWalk_spec (t : Trie α) (fuel : Nat)
    (IH : ∀ r : List α, r ≠ [] → r.length ≤ fuel →
      ∃ f, failF t fuel r = some f ∧ f.length < r.length ∧ f <:+ r ∧
        (isNode t r = true → isNode t f = true)) :
    ∀ (w : Nat) (f : List α) (c : α), f.length < w → f.length ≤ fuel →
      failWalk t (failF t fuel) w f c = [] ∨
        ∃ g, failWalk t (failF t fuel) w f c = g ++ [c] ∧ g <:+ f ∧
          hasChild t g c = true ∧ (isNode t f = true → isNode t g = true)
  | 0, f, c => fun hw _ => absurd hw (Nat.not_lt_zero _)
  | w + 1, f, c => fun hw hf => by
      by_cases hc : hasChild t f c
      · exact Or.inr ⟨f, by simp [failWalk, hc], List.suffix_rfl, hc, fun h => h⟩
      · by_cases hnil : f = []
        · subst hnil
          left
          simp [failWalk, hc, failF_nil]
        · obtain ⟨f1, hf1, hlen, hsuf, hnode⟩ := IH f hnil hf
          have hrw : failWalk t (failF t fuel) (w + 1) f c =
              failWalk t (failF t fuel) w f1 c := by
            simp [failWalk, hc, hf1]
          rw [hrw]
          rcases failWalk_spec t fuel IH w f1 c (by omega) (by omega) with
            h | ⟨g, hg, hsuf2, hcg, hnode2⟩
          · exact Or.inl h
          · exact Or.inr ⟨g, hg, hsuf2.trans hsuf, hcg, fun h => hnode2 (hnode h)⟩

/-- The fail pointer computed for a non-root path is a strictly shorter
proper suffix of the path, and a node of the trie whenever the path is. -/
theorem failF_spec (t : Trie α) :
    ∀ (fuel : Nat) (p : List α), p ≠ [] → p.length ≤ fuel →
      ∃ f, failF t fuel p = some f ∧ f.length < p.length ∧ f <:+ p ∧
        (isNode t p = true → isNode t f = true)
  | 0, p => fun hp hl =>
      absurd hl (by have := List.length_pos.mpr hp; omega)
  | fuel + 1, p => fun hp hl => by
      rcases List.eq_nil_or_concat p with rfl | ⟨q, c, rfl⟩
      · exact absurd rfl hp
      · rw [List.concat_eq_append] at hl ⊢
        by_cases hq : q = []
        · subst hq
          exact ⟨[], by simp [failF], by simp, List.nil_suffix,
            fun _ => isNode_nil t⟩
        · have hql : q.length ≤ fuel := by
            simp [List.length_append] at hl; omega
          obtain ⟨f0, hf0, hl0, hs0, hn0⟩ := failF_spec t fuel q hq hql
          have heq : failF t (fuel + 1) (q ++ [c]) =
              some (failWalk t (failF t fuel) (f0.length + 1) f0 c) := by
            simp [failF, hq, hf0]
          rcases failWalk_spec t fuel (failF_spec t fuel) (f0.length + 1) f0 c
              (by omega) (by omega) with hw | ⟨g, hg, hgs, hgc, hgn⟩
          · refine ⟨[], by rw [heq, hw], by simp, List.nil_suffix,
              fun _ => isNode_nil t⟩
          · refine ⟨g ++ [c], by rw [heq, hg], ?_,
              suffix_concat_self (hgs.trans hs0) c, fun h => hgc⟩
            have : g.length ≤ f0.length := hgs.length_le
            simp [List.length_append]
            omega

/-- Wrapper of `failF_spec` at the fuel `failP` uses. -/
theorem failP_spec (t : Trie α) (p : List α) (hp : p ≠ []) :
    ∃ f, failP t p = some f ∧ f.length < p.length ∧ f <:+ p ∧
      (isNode t p = true → isNode t f = true) :=
  failF_spec t p.length p hp le_rfl

end SWF

namespace SWF

variable {α : Type} [DecidableEq α]

/-- Maximality of the chain walk: a node `s'` with a `c`-child that is a
suffix of the walk start stays a suffix along the chain, so `s' ++ [c]`
is a suffix of the walk result. -/
theorem failWalk_max (t : Trie α) (fuel : Nat)
    (IHmax : ∀ r : List α, r.length ≤ fuel → ∀ s, s <:+ r → s ≠ r →
      isNode t s = true → ∀ f, failF t fuel r = some f → s <:+ f) :
    ∀ (w : Nat) (f : List α) (c : α) (s' : List α),
      f.length < w → f.length ≤ fuel →
      s' <:+ f → isNode t s' = true → hasChild t s' c = true →
      s' ++ [c] <:+ failWalk t (failF t fuel) w f c
  | 0, f, c, s' => fun hw _ _ _ _ => absurd hw (Nat.not_lt_zero _)
  | w + 1, f, c, s' => fun hw hf hsuf hnode hc => by
      by_cases hfc : hasChild t f c
      · rw [show failWalk t (failF t fuel) (w + 1) f c = f ++ [c] from by
          simp [failWalk, hfc]]
        exact suffix_concat_self hsuf c
      · have hne : s' ≠ f := fun h => hfc (h ▸ hc)
        have hfnil : f ≠ [] := by
          intro h
          subst h
          exact hne (List.suffix_nil.mp hsuf)
        obtain ⟨f1, hf1, hl1, -, -⟩ := failF_spec t fuel f hfnil hf
        have hs1 : s' <:+ f1 := IHmax f hf s' hsuf hne hnode f1 hf1
        have hrw : failWalk t (failF t fuel) (w + 1) f c =
            failWalk t (failF t fuel) w f1 c := by simp [failWalk, hfc, hf1]
        rw [hrw]
        exact failWalk_max t fuel IHmax w f1 c s' (by omega) (by omega)
          hs1 hnode hc

/-- Any proper suffix of a path that is itself a node is a suffix of the
path's computed fail pointer: the fail chain cannot skip over a node. -/
theorem failF_max (t : Trie α) :
    ∀ (fuel : Nat) (p : List α), p.length ≤ fuel →
      ∀ s, s <:+ p → s ≠ p → isNode t s = true →
        ∀ f, failF t fuel p = some f → s <:+ f
  | 0, p => fun _ s _ _ _ f hf => absurd hf (by simp [failF])
  | fuel + 1, p => fun hl s hs hne hnode f hf => by
      rcases List.eq_nil_or_concat p with rfl | ⟨q, c, rfl⟩
      · rw [failF_nil] at hf
        exact absurd hf (by simp)
      · rw [List.concat_eq_append] at hl hs hne hf
        by_cases hq : q = []
        · subst hq
          have hfeq : failF t (fuel + 1) ([] ++ [c] : List α) = some [] := by
            simp [failF]
          rw [hf] at hfeq
          obtain rfl : f = [] := by simpa using hfeq
          rcases suffix_concat_cases hs with rfl | ⟨s', rfl, hs'⟩
          · exact List.suffix_rfl
          · obtain rfl : s' = [] := List.suffix_nil.mp hs'
            exact absurd rfl hne
        · have hql : q.length ≤ fuel := by
            simp [List.length_append] at hl; omega
          obtain ⟨f0, hf0, hl0, hs0, hn0⟩ := failF_spec t fuel q hq hql
          have heq : failF t (fuel + 1) (q ++ [c]) =
              some (failWalk t (failF t fuel) (f0.length + 1) f0 c) := by
            simp [failF, hq, hf0]
          rw [hf] at heq
          obtain rfl : f = failWalk t (failF t fuel) (f0.length + 1) f0 c := by
            simpa using heq
          rcases suffix_concat_cases hs with rfl | ⟨s', rfl, hs'⟩
          · exact List.nil_suffix
          · have hne' : s' ≠ q := fun h => hne (by rw [h])
            have hnode' : isNode t s' = true := isNode_of_append hnode
            have hc : hasChild t s' c = true := hnode
            have hsf0 : s' <:+ f0 :=
              failF_max t fuel q hql s' hs' hne' hnode' f0 hf0
            exact failWalk_max t fuel (failF_max t fuel) (f0.length + 1) f0 c s'
              (by omega) (by omega) hsf0 hnode' hc

/-- Wrapper of `failF_max` at the fuel `failP` uses. -/
theorem failP_max (t : Trie α) {p s : List α} (hs : s <:+ p) (hne : s ≠ p)
    (hnode : isNode t s = true) {f : List α} (hf : failP t p = some f) :
    s <:+ f :=
  failF_max t p.length p le_rfl s hs hne hnode f hf

end SWF

namespace SWF

/-- C9: after failure-link construction completes, for every node of the
trie other than the root, the node's fail target is a node of strictly
smaller depth than the node itself. -/
theorem fail_target_shallower (dict : List (List Nat)) (p : List (List Nat))
    (hnode : isNode (buildTrie dict) p = true) (hp : p ≠ []) :
    ∃ f, failP (buildTrie dict) p = some f ∧
      isNode (buildTrie dict) f = true ∧ f.length < p.length := by
  obtain ⟨f, hf, hlen, -, hn⟩ := failP_spec (buildTrie dict) p hp
  exact ⟨f, hf, hn hnode, hlen⟩

/-- C9 witness: dictionary {"ab"}, node "ab" (depth 2), whose fail target
is the root (depth 0). -/
theorem fail_target_shallower_witness :
    isNode (buildTrie [[97, 98]]) [[97], [98]] = true ∧
    ∃ f, failP (buildTrie [[97, 98]]) [[97], [98]] = some f ∧
      isNode (buildTrie [[97, 98]]) f = true ∧
      f.length < ([[97], [98]] : List (List Nat)).length :=
  ⟨by decide,
    fail_target_shallower [[97, 98]] [[97], [98]] (by decide) (by decide)⟩

/-! ### The scanner state is the longest node suffix of the consumed text -/

theorem msn_isNode (t : Trie (List Nat)) :
    ∀ l, isNode t (msn t l) = true
  | [] => rfl
  | a :: l => by
      by_cases h : isNode t (a :: l)
      · simp [msn, h]
      · simpa [msn, h] using msn_isNode t l

theorem msn_suffix (t : Trie (List Nat)) :
    ∀ l, msn t l <:+ l
  | [] => List.suffix_rfl
  | a :: l => by
      by_cases h : isNode t (a :: l)
      · simp [msn, h]
      · simpa [msn, h] using ((msn_suffix t l).trans (List.suffix_cons a l))

theorem msn_max (t : Trie (List Nat)) :
    ∀ l s, s <:+ l → isNode t s = true → s <:+ msn t l
  | [], s => fun hs _ => by
      obtain rfl := List.suffix_nil.mp hs
      exact List.suffix_rfl
  | a :: l, s => fun hs hnode => by
      by_cases h : isNode t (a :: l)
      · simpa [msn, h]
      · rcases List.suffix_cons_iff.mp hs with rfl | hs'
        · exact absurd hnode (by simp [h])
        · simpa [msn, h] using msn_max t l s hs' hnode

/-- Uniqueness: anything that is a node, a suffix, and suffix-maximal
among node suffixes is the longest node suffix. -/
theorem msn_eq_of (t : Trie (List Nat)) {l x : List (List Nat)}
    (hnode : isNode t x = true) (hsuf : x <:+ l)
    (hmax : ∀ s, s <:+ l → isNode t s = true → s <:+ x) :
    msn t l = x := by
  have h1 : msn t l <:+ x := hmax _ (msn_suffix t l) (msn_isNode t l)
  have h2 : x <:+ msn t l := msn_max t l x hsuf hnode
  exact h1.eq_of_length (Nat.le_antisymm h1.length_le h2.length_le)

end SWF

namespace SWF

variable {α : Type} [DecidableEq α]

/-- Spec of the fallback loop: starting from a node that dominates every
node suffix of `ds` (the scanner state), the loop exits at a node
suffix of `ds` that still dominates every node suffix of `ds` holding a
`c`-child, and has a `c`-child itself unless it is the root. -/
theorem descendF_spec (t : Trie α) (ds : List α) (c : α) :
    ∀ (d : Nat) (p : List α), p.length ≤ d → isNode t p = true → p <:+ ds →
      (∀ s, s <:+ ds → isNode t s = true → hasChild t s c = true → s <:+ p) →
      (isNode t (descendF t d p c) = true ∧ descendF t d p c <:+ ds ∧
        (∀ s, s <:+ ds → isNode t s = true → hasChild t s c = true →
          s <:+ descendF t d p c) ∧
        (hasChild t (descendF t d p c) c = false → descendF t d p c = []))
  | 0, p => fun hl hn hs hmax => by
      obtain rfl : p = [] := List.length_eq_zero.mp (by omega)
      exact ⟨hn, hs, hmax, fun _ => rfl⟩
  | d + 1, p => fun hl hn hs hmax => by
      by_cases hstop : p = [] ∨ hasChild t p c
      · rw [show descendF t (d + 1) p c = p from by simp [descendF, hstop]]
        refine ⟨hn, hs, hmax, fun hc => ?_⟩
        rcases hstop with h | h
        · exact h
        · exact absurd h (by simp [hc])
      · push_neg at hstop
        obtain ⟨hne, hnc⟩ := hstop
        obtain ⟨f, hf, hlen, hsuf, hnodef⟩ := failP_spec t p hne
        have hfd : failD t p = f := by simp [failD, hf]
        have hrw : descendF t (d + 1) p c = descendF t d f c := by
          have : ¬(p = [] ∨ hasChild t p c = true) := by
            simp [hne, hnc]
          simp [descendF, this, hfd]
        rw [hrw]
        exact descendF_spec t ds c d f (by omega) (hnodef hn) (hsuf.trans hs)
          (fun s h1 h2 h3 =>
            failP_max t (hmax s h1 h2 h3)
              (fun h => (by simp [h ▸ h3] at hnc)) h2 hf)

/-- The match-collection loop from a node `p` returns exactly the
non-root terminal node suffixes of `p`. -/
theorem collectF_mem (t : Trie α) :
    ∀ (fuel : Nat) (p : List α), isNode t p = true → p.length ≤ fuel →
      ∀ q, q ∈ collectF t fuel p ↔
        (q ≠ [] ∧ isNode t q = true ∧ endAt t q = true ∧ q <:+ p)
  | fuel, [] => fun _ _ q => by
      constructor
      · intro h
        cases fuel <;> simp [collectF] at h
      · rintro ⟨hq, -, -, hsf⟩
        exact absurd (List.suffix_nil.mp hsf) hq
  | 0, a :: ps => fun _ hl q => absurd hl (by simp)
  | fuel + 1, a :: ps => fun hnode hl q => by
      obtain ⟨f, hf, hlen, hsuf, hnodef⟩ := failP_spec t (a :: ps) (by simp)
      have hfd : failD t (a :: ps) = f := by simp [failD, hf]
      have hfl : f.length ≤ fuel := by
        simp only [List.length_cons] at hl hlen; omega
      have hIH := collectF_mem t fuel f (hnodef hnode) hfl q
      constructor
      · intro h
        simp only [collectF, hfd, List.mem_append] at h
        rcases h with h | h
        · by_cases he : endAt t (a :: ps)
          · simp only [he, if_true, List.mem_singleton] at h
            subst h
            exact ⟨by simp, hnode, he, List.suffix_rfl⟩
          · simp [he] at h
        · obtain ⟨hq, hn, he, hsf⟩ := hIH.mp h
          exact ⟨hq, hn, he, hsf.trans hsuf⟩
      · rintro ⟨hq, hn, he, hsf⟩
        simp only [collectF, hfd, List.mem_append]
        by_cases heq : q = a :: ps
        · subst heq
          left
          simp [he]
        · right
          exact hIH.mpr ⟨hq, hn, he, failP_max t hsf heq hn hf⟩

/-- Along the collection loop the reported nodes strictly decrease in
depth, each being a proper suffix of all earlier ones. -/
theorem collectF_pairwise (t : Trie α) :
    ∀ (fuel : Nat) (p : List α), isNode t p = true → p.length ≤ fuel →
      (collectF t fuel p).Pairwise
        (fun a b => b <:+ a ∧ b.length < a.length)
  | fuel, [] => fun _ _ => by cases fuel <;> simp [collectF]
  | 0, a :: ps => fun _ hl => absurd hl (by simp)
  | fuel + 1, a :: ps => fun hnode hl => by
      obtain ⟨f, hf, hlen, hsuf, hnodef⟩ := failP_spec t (a :: ps) (by simp)
      have hfd : failD t (a :: ps) = f := by simp [failD, hf]
      have hfl : f.length ≤ fuel := by
        simp only [List.length_cons] at hl hlen; omega
      simp only [collectF, hfd]
      apply List.pairwise_append.mpr
      refine ⟨?_, collectF_pairwise t fuel f (hnodef hnode) hfl, ?_⟩
      · by_cases he : endAt t (a :: ps) <;> simp [he]
      · intro x hx y hy
        obtain ⟨hy0, hyn, hye, hys⟩ :=
          (collectF_mem t fuel f (hnodef hnode) hfl y).mp hy
        by_cases he : endAt t (a :: ps)
        · simp only [he, if_true, List.mem_singleton] at hx
          subst hx
          refine ⟨hys.trans hsuf, ?_⟩
          have := hys.length_le
          omega
        · simp [he] at hx

theorem scanStep_isNode (t : Trie α) (p : List α) (c : α) :
    isNode t (scanStep t p c) = true := by
  by_cases h : hasChild t (descendF t p.length p c) c
  · have heq : scanStep t p c = descendF t p.length p c ++ [c] := by
      simp [scanStep, h]
    rw [heq]
    exact h
  · have heq : scanStep t p c = [] := by simp [scanStep, h]
    rw [heq]
    exact isNode_nil t

end SWF

namespace SWF

variable {α : Type} [DecidableEq α]

/-- Central scanner invariant, one step: from the longest node suffix of
the already-consumed characters `ds`, one step of the exact scanner on
character `c` lands on the longest node suffix of `ds ++ [c]`. -/
theorem scanStep_msn (t : Trie (List Nat)) (ds : List (List Nat))
    (c : List Nat) :
    scanStep t (msn t ds) c = msn t (ds ++ [c]) := by
  obtain ⟨hrn, hrs, hrmax, hrnil⟩ :=
    descendF_spec t ds c (msn t ds).length (msn t ds) le_rfl
      (msn_isNode t ds) (msn_suffix t ds)
      (fun s hs hn _ => msn_max t ds s hs hn)
  by_cases hc : hasChild t (descendF t (msn t ds).length (msn t ds) c) c
  · have heq : scanStep t (msn t ds) c =
        descendF t (msn t ds).length (msn t ds) c ++ [c] := by
      simp [scanStep, hc]
    rw [heq]
    refine (msn_eq_of t hc (suffix_concat_self hrs c) ?_).symm
    intro s hs hn
    rcases suffix_concat_cases hs with rfl | ⟨s', rfl, hs'⟩
    · exact List.nil_suffix
    · exact suffix_concat_self (hrmax s' hs' (isNode_of_append hn) hn) c
  · have heq : scanStep t (msn t ds) c = [] := by simp [scanStep, hc]
    have hre := hrnil (by simpa using hc)
    rw [heq]
    refine (msn_eq_of t (isNode_nil t) List.nil_suffix ?_).symm
    intro s hs hn
    rcases suffix_concat_cases hs with rfl | ⟨s', rfl, hs'⟩
    · exact List.suffix_rfl
    · have hsr := hrmax s' hs' (isNode_of_append hn) hn
      rw [hre] at hsr
      obtain rfl := List.suffix_nil.mp hsr
      rw [hre] at hc
      exact absurd hn hc

/-- Characterisation of the exact scanner's emissions: `(i, q)` is
emitted iff `q` is a non-root terminal node whose path is a suffix of
the first `i + 1` characters (relative to the virtual past `ds` and
base index `i0`). -/
theorem scanGo_mem (t : Trie (List Nat)) :
    ∀ (cs ds : List (List Nat)) (i0 i : Nat) (q : List (List Nat)),
      (i, q) ∈ scanGo t cs (msn t ds) i0 ↔
        ∃ n, n < cs.length ∧ i = i0 + n ∧ q ≠ [] ∧ isNode t q = true ∧
          endAt t q = true ∧ q <:+ ds ++ cs.take (n + 1)
  | [], ds, i0, i, q => by simp [scanGo]
  | c :: cs, ds, i0, i, q => by
      have hstep : scanStep t (msn t ds) c = msn t (ds ++ [c]) :=
        scanStep_msn t ds c
      have hcm := collectF_mem t (msn t (ds ++ [c])).length
        (msn t (ds ++ [c])) (msn_isNode t _) le_rfl
      constructor
      · intro h
        simp only [scanGo, hstep, List.mem_append, List.mem_map] at h
        rcases h with ⟨x, hx, hxy⟩ | h
        · injection hxy with h1 h2
          subst h1
          subst h2
          obtain ⟨hq, hn, he, hs⟩ := (hcm x).mp hx
          exact ⟨0, by simp, by omega, hq, hn, he,
            by simpa using hs.trans (msn_suffix t _)⟩
        · obtain ⟨n', hn', rfl, hq, hnq, he, hs⟩ :=
            (scanGo_mem t cs (ds ++ [c]) (i0 + 1) i q).mp h
          refine ⟨n' + 1, by simpa using hn', by omega, hq, hnq, he, ?_⟩
          simpa [List.append_assoc] using hs
      · rintro ⟨n, hn, rfl, hq, hnq, he, hs⟩
        simp only [scanGo, hstep, List.mem_append, List.mem_map]
        cases n with
        | zero =>
            left
            refine ⟨q, (hcm q).mpr ⟨hq, hnq, he, ?_⟩, by simp⟩
            exact msn_max t _ q (by simpa using hs) hnq
        | succ n' =>
            right
            refine (scanGo_mem t cs (ds ++ [c]) (i0 + 1) _ q).mpr
              ⟨n', by simp at hn; omega, by omega, hq, hnq, he, ?_⟩
            simpa [List.append_assoc] using hs

theorem scanGo_fst_ge (t : Trie α) :
    ∀ (cs p : List α) (i0 i : Nat) (q : List α),
      (i, q) ∈ scanGo t cs p i0 → i0 ≤ i
  | [], p, i0, i, q => by simp [scanGo]
  | c :: cs, p, i0, i, q => fun h => by
      simp only [scanGo, List.mem_append, List.mem_map] at h
      rcases h with ⟨x, -, hxy⟩ | h
      · cases hxy
        exact le_rfl
      · have := scanGo_fst_ge t cs (scanStep t p c) (i0 + 1) i q h
        omega

/-- Emission order of the exact scanner: indices are non-decreasing, and
emissions at the same index go from deeper terminal nodes to
strictly shallower ones. -/
theorem scanGo_pairwise (t : Trie α) :
    ∀ (cs p : List α) (i0 : Nat),
      (scanGo t cs p i0).Pairwise
        (fun a b => a.1 < b.1 ∨
          (a.1 = b.1 ∧ b.2 <:+ a.2 ∧ b.2.length < a.2.length))
  | [], p, i0 => by simp [scanGo]
  | c :: cs, p, i0 => by
      simp only [scanGo]
      apply List.pairwise_append.mpr
      refine ⟨?_, scanGo_pairwise t cs _ (i0 + 1), ?_⟩
      · apply List.pairwise_map.mpr
        exact (collectF_pairwise t (scanStep t p c).length (scanStep t p c)
          (scanStep_isNode t p c) le_rfl).imp
          (fun h => Or.inr ⟨rfl, h.1, h.2⟩)
      · intro a ha b hb
        obtain ⟨x, -, rfl⟩ := List.mem_map.mp ha
        left
        have hb' : (b.1, b.2) ∈ scanGo t cs (scanStep t p c) (i0 + 1) := by
          simpa using hb
        have := scanGo_fst_ge t cs (scanStep t p c) (i0 + 1) b.1 b.2 hb'
        simp only []
        omega

end SWF

namespace SWF

variable {α : Type} [DecidableEq α]

/-! ### Effect of `addWord` and `buildTrie` on the observables -/

theorem lookupChild_setChild (c d : α) (u : Trie α) :
    ∀ cs : List (α × Trie α),
      lookupChild (setChild cs c u) d =
        if d = c then some u else lookupChild cs d
  | [] => by
      by_cases h : c = d
      · subst h
        simp [setChild, lookupChild]
      · have hdc : ¬d = c := fun h' => h h'.symm
        simp [setChild, lookupChild, h, hdc]
  | (k, v) :: rest => by
      by_cases hkc : k = c
      · subst hkc
        by_cases hkd : k = d
        · subst hkd
          simp [setChild, lookupChild]
        · have hdk : ¬d = k := fun h' => hkd h'.symm
          simp [setChild, lookupChild, hkd, hdk]
      · by_cases hkd : k = d
        · subst hkd
          simp [setChild, lookupChild, hkc]
        · simp [setChild, lookupChild, hkc, hkd,
            lookupChild_setChild c d u rest]

end SWF

namespace SWF

variable {α : Type} [DecidableEq α]

theorem findNode_empty :
    ∀ p : List α,
      findNode (Trie.empty : Trie α) p =
        if p = [] then some Trie.empty else none
  | [] => rfl
  | c :: p => by simp [findNode, Trie.empty, Trie.children, lookupChild]

theorem endAt_empty (p : List α) : endAt (Trie.empty : Trie α) p = false := by
  unfold endAt
  rw [findNode_empty]
  by_cases h : p = [] <;> simp [h, Trie.empty, Trie.isEnd]

theorem lenAt_empty (p : List α) : lenAt (Trie.empty : Trie α) p = 0 := by
  unfold lenAt
  rw [findNode_empty]
  by_cases h : p = [] <;> simp [h, Trie.empty, Trie.len]

theorem isNode_empty (p : List α) :
    isNode (Trie.empty : Trie α) p = decide (p = []) := by
  unfold isNode
  rw [findNode_empty]
  by_cases h : p = [] <;> simp [h]

theorem endAt_cons (t : Trie α) (c : α) (p : List α) :
    endAt t (c :: p) =
      match lookupChild t.children c with
      | some u => endAt u p
      | none => false := by
  cases h : lookupChild t.children c <;> simp [endAt, findNode, h]

theorem lenAt_cons (t : Trie α) (c : α) (p : List α) :
    lenAt t (c :: p) =
      match lookupChild t.children c with
      | some u => lenAt u p
      | none => 0 := by
  cases h : lookupChild t.children c <;> simp [lenAt, findNode, h]

theorem isNode_cons (t : Trie α) (c : α) (p : List α) :
    isNode t (c :: p) =
      match lookupChild t.children c with
      | some u => isNode u p
      | none => false := by
  cases h : lookupChild t.children c <;> simp [isNode, findNode, h]

/-- `addWord` marks exactly the inserted word's node terminal and leaves
every other `end` flag unchanged. -/
theorem endAt_addWord :
    ∀ (t : Trie α) (w : List α) (len : Nat) (p : List α),
      endAt (addWord t w len) p = if p = w then true else endAt t p
  | t, [], len, [] => by simp [addWord, endAt, findNode, Trie.isEnd]
  | t, [], len, d :: p => by
      rw [if_neg (by simp)]
      rw [endAt_cons, endAt_cons]
      simp only [addWord, Trie.children]
  | t, c :: w, len, [] => by
      rw [if_neg (by simp)]
      simp [addWord, endAt, findNode, Trie.isEnd]
  | t, c :: w, len, d :: p => by
      by_cases hdc : d = c
      · subst hdc
        rw [endAt_cons, endAt_cons]
        have hset : lookupChild (addWord t (d :: w) len).children d =
            some (addWord ((lookupChild t.children d).getD Trie.empty)
              w len) := by
          simp [addWord, Trie.children, lookupChild_setChild]
        rw [hset]
        show endAt (addWord ((lookupChild t.children d).getD Trie.empty)
          w len) p = _
        rw [endAt_addWord _ w len p]
        simp only [List.cons.injEq, true_and]
        cases h : lookupChild t.children d with
        | none => simp only [h, Option.getD_none, endAt_empty]
        | some u => simp only [h, Option.getD_some]
      · rw [if_neg (by simp [hdc])]
        rw [endAt_cons, endAt_cons]
        have hset : lookupChild (addWord t (c :: w) len).children d =
            lookupChild t.children d := by
          simp [addWord, Trie.children, lookupChild_setChild, hdc]
        rw [hset]

/-- `addWord` records the given length at the inserted word's node and
leaves every other stored length unchanged. -/
theorem lenAt_addWord :
    ∀ (t : Trie α) (w : List α) (len : Nat) (p : List α),
      lenAt (addWord t w len) p = if p = w then len else lenAt t p
  | t, [], len, [] => by simp [addWord, lenAt, findNode, Trie.len]
  | t, [], len, d :: p => by
      rw [if_neg (by simp)]
      rw [lenAt_cons, lenAt_cons]
      simp only [addWord, Trie.children]
  | t, c :: w, len, [] => by
      rw [if_neg (by simp)]
      simp [addWord, lenAt, findNode, Trie.len]
  | t, c :: w, len, d :: p => by
      by_cases hdc : d = c
      · subst hdc
        rw [lenAt_cons, lenAt_cons]
        have hset : lookupChild (addWord t (d :: w) len).children d =
            some (addWord ((lookupChild t.children d).getD Trie.empty)
              w len) := by
          simp [addWord, Trie.children, lookupChild_setChild]
        rw [hset]
        show lenAt (addWord ((lookupChild t.children d).getD Trie.empty)
          w len) p = _
        rw [lenAt_addWord _ w len p]
        simp only [List.cons.injEq, true_and]
        cases h : lookupChild t.children d with
        | none => simp only [h, Option.getD_none, lenAt_empty]
        | some u => simp only [h, Option.getD_some]
      · rw [if_neg (by simp [hdc])]
        rw [lenAt_cons, lenAt_cons]
        have hset : lookupChild (addWord t (c :: w) len).children d =
            lookupChild t.children d := by
          simp [addWord, Trie.children, lookupChild_setChild, hdc]
        rw [hset]

/-- `addWord` creates exactly the nodes along the inserted word's path. -/
theorem isNode_addWord :
    ∀ (t : Trie α) (w : List α) (len : Nat) (p : List α),
      isNode (addWord t w len) p = (isNode t p || decide (p <+: w))
  | t, [], len, [] => by simp [addWord, isNode, findNode]
  | t, [], len, d :: p => by
      rw [isNode_cons, isNode_cons]
      simp only [addWord, Trie.children]
      have : ¬(d :: p <+: ([] : List α)) := by simp
      simp only [this, decide_False, Bool.or_false]
  | t, c :: w, len, [] => by simp [addWord, isNode, findNode]
  | t, c :: w, len, d :: p => by
      by_cases hdc : d = c
      · subst hdc
        rw [isNode_cons, isNode_cons]
        have hset : lookupChild (addWord t (d :: w) len).children d =
            some (addWord ((lookupChild t.children d).getD Trie.empty)
              w len) := by
          simp [addWord, Trie.children, lookupChild_setChild]
        rw [hset]
        show isNode (addWord ((lookupChild t.children d).getD Trie.empty)
          w len) p = _
        rw [isNode_addWord _ w len p]
        have hpre : decide (d :: p <+: d :: w) = decide (p <+: w) := by
          simp [decide_eq_decide, List.cons_prefix_cons]
        rw [hpre]
        cases h : lookupChild t.children d with
        | none =>
            simp only [h, Option.getD_none, isNode_empty]
            by_cases hp : p = [] <;> simp [hp]
        | some u => simp only [h, Option.getD_some]
      · rw [isNode_cons, isNode_cons]
        have hset : lookupChild (addWord t (c :: w) len).children d =
            lookupChild t.children d := by
          simp [addWord, Trie.children, lookupChild_setChild, hdc]
        rw [hset]
        have : ¬(d :: p <+: c :: w) := by
          simp [List.cons_prefix_cons, hdc]
        simp only [this, decide_False, Bool.or_false]

end SWF

namespace SWF

variable {α : Type} [DecidableEq α]

theorem isNode_of_endAt {t : Trie α} {p : List α} (h : endAt t p = true) :
    isNode t p = true := by
  unfold endAt at h
  unfold isNode
  cases hf : findNode t p with
  | none => rw [hf] at h; simp at h
  | some u => simp

/-- Terminal nodes accumulated by folding `addWord` over a dictionary. -/
theorem endAt_foldl :
    ∀ (dict : List (List Nat)) (t0 : Trie (List Nat)) (p : List (List Nat)),
      (endAt (dict.foldl (fun t w => addWord t (codePointsOf w) w.length) t0)
          p = true) ↔
        (endAt t0 p = true ∨ ∃ w ∈ dict, codePointsOf w = p)
  | [], t0, p => by simp
  | w0 :: dict, t0, p => by
      simp only [List.foldl_cons]
      rw [endAt_foldl dict _ p, endAt_addWord]
      constructor
      · rintro (h | h)
        · by_cases hp : p = codePointsOf w0
          · exact Or.inr ⟨w0, by simp, hp.symm⟩
          · rw [if_neg hp] at h
            exact Or.inl h
        · obtain ⟨w, hw, hwp⟩ := h
          exact Or.inr ⟨w, by simp [hw], hwp⟩
      · rintro (h | ⟨w, hw, hwp⟩)
        · left
          by_cases hp : p = codePointsOf w0 <;> simp [hp, h]
        · rcases List.mem_cons.mp hw with rfl | hw'
          · left
            rw [if_pos hwp.symm]
          · right
            exact ⟨w, hw', hwp⟩

theorem endAt_buildTrie (dict : List (List Nat)) (p : List (List Nat)) :
    (endAt (buildTrie dict) p = true) ↔ ∃ w ∈ dict, codePointsOf w = p := by
  unfold buildTrie
  rw [endAt_foldl]
  simp [endAt_empty]

theorem lenAt_foldl_frame :
    ∀ (dict : List (List Nat)) (t0 : Trie (List Nat)) (p : List (List Nat)),
      (¬∃ w ∈ dict, codePointsOf w = p) →
      lenAt (dict.foldl (fun t w => addWord t (codePointsOf w) w.length) t0) p
        = lenAt t0 p
  | [], t0, p => fun _ => by simp
  | w0 :: dict, t0, p => fun h => by
      simp only [List.foldl_cons]
      rw [lenAt_foldl_frame dict _ p
        (fun hx => h (by obtain ⟨w, hw, hwp⟩ := hx; exact ⟨w, by simp [hw], hwp⟩))]
      rw [lenAt_addWord,
        if_neg (fun hp => h ⟨w0, by simp, hp.symm⟩)]

theorem lenAt_buildTrie_aux :
    ∀ (dict : List (List Nat)) (t0 : Trie (List Nat)) (p : List (List Nat)),
      (∃ w ∈ dict, codePointsOf w = p) →
      ∃ w ∈ dict, codePointsOf w = p ∧
        lenAt (dict.foldl (fun t w => addWord t (codePointsOf w) w.length) t0)
          p = w.length
  | [], t0, p => by
      rintro ⟨w, hw, -⟩
      simp at hw
  | w0 :: dict, t0, p => fun h => by
      simp only [List.foldl_cons]
      by_cases hd : ∃ w ∈ dict, codePointsOf w = p
      · obtain ⟨w, hw, hwp, hlen⟩ := lenAt_buildTrie_aux dict _ p hd
        exact ⟨w, by simp [hw], hwp, hlen⟩
      · obtain ⟨w, hw, hwp⟩ := h
        rcases List.mem_cons.mp hw with rfl | hw'
        · refine ⟨w, by simp, hwp, ?_⟩
          rw [lenAt_foldl_frame dict _ p hd, lenAt_addWord, if_pos hwp.symm]
        · exact absurd ⟨w, hw', hwp⟩ hd

theorem lenAt_buildTrie (dict : List (List Nat)) (p : List (List Nat))
    (h : ∃ w ∈ dict, codePointsOf w = p) :
    ∃ w ∈ dict, codePointsOf w = p ∧ lenAt (buildTrie dict) p = w.length :=
  lenAt_buildTrie_aux dict .empty p h

/-! ### Properties of the code-point decomposition -/

theorem codePointsOf_cons₂_pos {u v : Nat} {rest : List Nat}
    (h : (isHighSurr u && isLowSurr v) = true) :
    codePointsOf (u :: v :: rest) = [u, v] :: codePointsOf rest := by
  simp [codePointsOf, h]

theorem codePointsOf_cons₂_neg {u v : Nat} {rest : List Nat}
    (h : (isHighSurr u && isLowSurr v) = false) :
    codePointsOf (u :: v :: rest) = [u] :: codePointsOf (v :: rest) := by
  simp [codePointsOf, h]

theorem codePointsOf_flatten : ∀ s, (codePointsOf s).flatten = s
  | [] => rfl
  | [u] => rfl
  | u :: v :: rest => by
      cases h : (isHighSurr u && isLowSurr v) with
      | true =>
          rw [codePointsOf_cons₂_pos h]
          simp [codePointsOf_flatten rest]
      | false =>
          rw [codePointsOf_cons₂_neg h]
          simp [codePointsOf_flatten (v :: rest)]

theorem codePointsOf_ne_nil : ∀ s, ∀ x ∈ codePointsOf s, x ≠ []
  | [], x => by simp [codePointsOf]
  | [u], x => by
      simp only [codePointsOf, List.mem_singleton]
      rintro rfl
      simp
  | u :: v :: rest, x => by
      cases h : (isHighSurr u && isLowSurr v) with
      | true =>
          rw [codePointsOf_cons₂_pos h]
          simp only [List.mem_cons]
          rintro (rfl | hx)
          · simp
          · exact codePointsOf_ne_nil rest x hx
      | false =>
          rw [codePointsOf_cons₂_neg h]
          simp only [List.mem_cons]
          rintro (rfl | hx)
          · simp
          · exact codePointsOf_ne_nil (v :: rest) x hx

theorem codePointsOf_length_le : ∀ s, (codePointsOf s).length ≤ s.length
  | [] => le_rfl
  | [u] => le_rfl
  | u :: v :: rest => by
      cases h : (isHighSurr u && isLowSurr v) with
      | true =>
          have := codePointsOf_length_le rest
          rw [codePointsOf_cons₂_pos h]
          simp only [List.length_cons]
          omega
      | false =>
          have := codePointsOf_length_le (v :: rest)
          rw [codePointsOf_cons₂_neg h]
          simp only [List.length_cons] at this ⊢
          omega

theorem codePointsOf_noSurr :
    ∀ s, NoSurr s → codePointsOf s = s.map (fun u => [u])
  | [], _ => rfl
  | [u], _ => rfl
  | u :: v :: rest, h => by
      have hu : isHighSurr u = false := h u (by simp)
      have hb : (isHighSurr u && isLowSurr v) = false := by simp [hu]
      have h' : NoSurr (v :: rest) := fun x hx => h x (by
        simp only [List.mem_cons] at hx ⊢
        tauto)
      rw [codePointsOf_cons₂_neg hb, codePointsOf_noSurr (v :: rest) h']
      simp

theorem codePointsOf_inj {a b : List Nat}
    (h : codePointsOf a = codePointsOf b) : a = b := by
  have := codePointsOf_flatten a
  rw [h, codePointsOf_flatten b] at this
  exact this.symm

omit [DecidableEq α] in
theorem suffix_eq_drop {s l : List α} (h : s <:+ l) :
    l.drop (l.length - s.length) = s := by
  obtain ⟨u, rfl⟩ := h
  have : (u ++ s).length - s.length = u.length := by
    simp [List.length_append]
  rw [this, List.drop_left]

theorem jsSubstring_of_le {s : List Nat} {a b : Int} (h0 : 0 ≤ a)
    (hab : a ≤ b) (hb : b ≤ (s.length : Int)) :
    jsSubstring s a b = (s.take b.toNat).drop a.toNat := by
  unfold jsSubstring
  have h1 : max a 0 = a := by omega
  have h2 : max b 0 = b := by omega
  have h3 : min a (s.length : Int) = a := by omega
  have h4 : min b (s.length : Int) = b := by omega
  have h5 : min a b = a := by omega
  have h6 : max a b = b := by omega
  simp only [h1, h2, h3, h4, h5, h6]

end SWF

namespace SWF

theorem flatten_map_singleton :
    ∀ l : List Nat, (l.map (fun u => [u])).flatten = l
  | [] => rfl
  | u :: l => by simp [flatten_map_singleton l]

theorem suffix_of_map_singleton {a l : List Nat}
    (h : a.map (fun u => [u]) <:+ l.map (fun u => [u])) : a <:+ l := by
  obtain ⟨u, hu⟩ := h
  refine ⟨u.flatten, ?_⟩
  have := congrArg List.flatten hu
  simpa [flatten_map_singleton] using this

theorem scanGo_mem_root (t : Trie (List Nat)) (cs : List (List Nat))
    (i : Nat) (q : List (List Nat)) :
    (i, q) ∈ scanGo t cs [] 0 ↔
      ∃ n, n < cs.length ∧ i = n ∧ q ≠ [] ∧ isNode t q = true ∧
        endAt t q = true ∧ q <:+ cs.take (n + 1) := by
  have h := scanGo_mem t cs [] 0 i q
  simpa using h

/-- Everything the exact scanner guarantees about one reported match when
dictionary and text are free of high surrogates. -/
theorem exact_emission_spec (dict : List (List Nat)) (text : List Nat)
    (hD : ∀ w ∈ dict, NoSurr w) (hT : NoSurr text) :
    ∀ m ∈ findSensitiveWords (buildTrie dict) text,
      ∃ (w : List Nat) (i : Nat),
        w ∈ dict ∧ w ≠ [] ∧ i < text.length ∧ w.length ≤ i + 1 ∧
        m.endPos = i ∧ m.start = (i : Int) - w.length + 1 ∧
        m.word = w ∧ w <:+ text.take (i + 1) := by
  intro m hm
  unfold findSensitiveWords at hm
  obtain ⟨⟨i, q⟩, hiq, rfl⟩ := List.mem_map.mp hm
  obtain ⟨n, hn, rfl, hq0, hqn, hqe, hqs⟩ :=
    (scanGo_mem_root (buildTrie dict) _ i q).mp hiq
  have hchars : codePointsOf text = text.map (fun u => [u]) :=
    codePointsOf_noSurr text hT
  obtain ⟨w, hw, hcw⟩ := (endAt_buildTrie dict q).mp hqe
  obtain ⟨w', hw', hcw', hlen⟩ := lenAt_buildTrie dict q ⟨w, hw, hcw⟩
  obtain rfl : w = w' := codePointsOf_inj (hcw.trans hcw'.symm)
  have hwns : NoSurr w := hD w hw
  have hqw : q = w.map (fun u => [u]) := by
    rw [← hcw, codePointsOf_noSurr w hwns]
  have hw0 : w ≠ [] := by
    rintro rfl
    simp [hqw] at hq0
  have hitext : i < text.length := by
    rw [hchars] at hn
    simpa using hn
  have hsufw : w <:+ text.take (i + 1) := by
    apply suffix_of_map_singleton
    rw [← hqw, List.map_take, ← hchars]
    exact hqs
  have hwlen : w.length ≤ i + 1 := by
    have h1 := hsufw.length_le
    have h2 := List.length_take_le (i + 1) text
    omega
  refine ⟨w, i, hw, hw0, hitext, hwlen, rfl, by rw [hlen], ?_, hsufw⟩
  show jsSubstring text ((i : Int) - lenAt (buildTrie dict) q + 1)
      ((i : Int) + 1) = w
  rw [hlen]
  have h0 : (0 : Int) ≤ (i : Int) - w.length + 1 := by omega
  have hab : (i : Int) - w.length + 1 ≤ (i : Int) + 1 := by omega
  have hbl : (i : Int) + 1 ≤ (text.length : Int) := by omega
  rw [jsSubstring_of_le h0 hab hbl]
  have ht1 : ((i : Int) + 1).toNat = i + 1 := by omega
  have ht2 : ((i : Int) - w.length + 1).toNat = i + 1 - w.length := by omega
  rw [ht1, ht2]
  have hlt : (text.take (i + 1)).length = i + 1 :=
    List.length_take_of_le (by omega)
  have := suffix_eq_drop hsufw
  rw [hlt] at this
  exact this

end SWF

namespace SWF

/-- C1 counterexample: with the dictionary containing only the single
astral character U+1D482 (UTF-16 units [55349, 56450]) and the text equal
to that word, the only returned match has `word = [55349]` (a lone high
surrogate), which is not a member of the dictionary, and a negative
`start`: `word.length` counts UTF-16 units while the scan position counts
code points. -/
theorem exact_match_sound_cex :
    findSensitiveWords (buildTrie [[55349, 56450]]) [55349, 56450] =
      [⟨[55349], -1, 0⟩] ∧
    ([55349] : List Nat) ∉ ([[55349, 56450]] : List (List Nat)) := by
  decide

/-- C1 (amended): when neither the dictionary words nor the text contain
high-surrogate code units (so code points and code units coincide), every
match `{word, start, end}` of the exact scanner satisfies: `word` is a
member of the dictionary, `start ≥ 0`, and the substring of the text from
`start` to `end` inclusive equals `word`. -/
theorem exact_match_sound (dict : List (List Nat)) (text : List Nat)
    (hD : ∀ w ∈ dict, NoSurr w) (hT : NoSurr text) :
    ∀ m ∈ findSensitiveWords (buildTrie dict) text,
      m.word ∈ dict ∧ 0 ≤ m.start ∧
        m.word = (text.drop m.start.toNat).take
          (m.endPos + 1 - m.start.toNat) := by
  intro m hm
  obtain ⟨w, i, hw, hw0, hit, hwl, he, hs, hword, hsuf⟩ :=
    exact_emission_spec dict text hD hT m hm
  refine ⟨hword ▸ hw, by rw [hs]; omega, ?_⟩
  have hsn : m.start.toNat = i + 1 - w.length := by rw [hs]; omega
  rw [hword, hsn, he]
  have harith : i + 1 - (i + 1 - w.length) = w.length := by
    have := List.length_pos.mpr hw0
    omega
  rw [harith]
  have hd := suffix_eq_drop hsuf
  rw [List.length_take_of_le (by omega : i + 1 ≤ text.length),
    List.drop_take, harith] at hd
  exact hd.symm

/-- C1 witness: dictionary {"ab"}, text "xab". -/
theorem exact_match_sound_witness :
    (∀ m ∈ findSensitiveWords (buildTrie [[97, 98]]) [120, 97, 98],
       m.word ∈ ([[97, 98]] : List (List Nat)) ∧ 0 ≤ m.start ∧
         m.word = (([120, 97, 98] : List Nat).drop m.start.toNat).take
           (m.endPos + 1 - m.start.toNat)) ∧
    findSensitiveWords (buildTrie [[97, 98]]) [120, 97, 98] =
      [⟨[97, 98], 1, 2⟩] :=
  ⟨exact_match_sound [[97, 98]] [120, 97, 98] (by decide) (by decide),
    by decide⟩

/-- C2 counterexample: dictionary {U+1D483} (units [55349, 56451]), text
equal to that single word.  The word occurs at start offset 0 (in either
offset convention), but no returned match has `start = 0`: the only match
is `{word := [55349], start := -1, end := 0}`. -/
theorem exact_no_false_negatives_cex :
    findSensitiveWords (buildTrie [[55349, 56451]]) [55349, 56451] =
      [⟨[55349], -1, 0⟩] ∧
    ∀ m ∈ findSensitiveWords (buildTrie [[55349, 56451]]) [55349, 56451],
      m.start ≠ 0 := by
  decide

/-- C2 (amended): when neither the dictionary words nor the text contain
high-surrogate code units, every literal occurrence of a non-empty
dictionary word `w` at offset `s` of the text appears in the result as the
match `{word := w, start := s, end := s + w.length - 1}`. -/
theorem exact_no_false_negatives (dict : List (List Nat)) (text : List Nat)
    (hD : ∀ w ∈ dict, NoSurr w) (hT : NoSurr text)
    (w : List Nat) (hw : w ∈ dict) (hw0 : w ≠ [])
    (s : Nat) (hocc : (text.drop s).take w.length = w)
    (hsl : s + w.length ≤ text.length) :
    (⟨w, (s : Int), s + w.length - 1⟩ : Match) ∈
      findSensitiveWords (buildTrie dict) text := by
  have hchars : codePointsOf text = text.map (fun u => [u]) :=
    codePointsOf_noSurr text hT
  have hqw : codePointsOf w = w.map (fun u => [u]) :=
    codePointsOf_noSurr w (hD w hw)
  have hwl : 1 ≤ w.length := List.length_pos.mpr hw0
  have hi1 : (s + w.length - 1) + 1 = s + w.length := by omega
  have hqe : endAt (buildTrie dict) (codePointsOf w) = true :=
    (endAt_buildTrie dict _).mpr ⟨w, hw, rfl⟩
  have htake : text.take ((s + w.length - 1) + 1) = text.take s ++ w := by
    rw [hi1, List.take_add, hocc]
  have hsuf : w <:+ text.take ((s + w.length - 1) + 1) := by
    rw [htake]
    exact List.suffix_append _ _
  have hmem : (s + w.length - 1, codePointsOf w) ∈
      scanGo (buildTrie dict) (codePointsOf text) [] 0 := by
    apply (scanGo_mem_root _ _ _ _).mpr
    refine ⟨s + w.length - 1, ?_, rfl, ?_, isNode_of_endAt hqe, hqe, ?_⟩
    · rw [hchars]
      simp only [List.length_map]
      omega
    · rw [hqw]
      simp [hw0]
    · rw [hqw, hchars, ← List.map_take]
      exact hsuf.map _
  obtain ⟨w', hw', hcw', hlen⟩ :=
    lenAt_buildTrie dict (codePointsOf w) ⟨w, hw, rfl⟩
  have hlen' : lenAt (buildTrie dict) (codePointsOf w) = w.length := by
    rw [hlen, codePointsOf_inj hcw']
  unfold findSensitiveWords
  refine List.mem_map.mpr ⟨(s + w.length - 1, codePointsOf w), hmem, ?_⟩
  have hstart : ((s + w.length - 1 : Nat) : Int) -
      lenAt (buildTrie dict) (codePointsOf w) + 1 = (s : Int) := by
    rw [hlen']
    omega
  have hword : jsSubstring text
      (((s + w.length - 1 : Nat) : Int) -
        lenAt (buildTrie dict) (codePointsOf w) + 1)
      (((s + w.length - 1 : Nat) : Int) + 1) = w := by
    rw [hstart]
    have h0 : (0 : Int) ≤ (s : Int) := by omega
    have hab : (s : Int) ≤ ((s + w.length - 1 : Nat) : Int) + 1 := by
      omega
    have hbl : ((s + w.length - 1 : Nat) : Int) + 1 ≤ (text.length : Int) := by
      omega
    rw [jsSubstring_of_le h0 hab hbl]
    have ht1 : (((s + w.length - 1 : Nat) : Int) + 1).toNat =
        (s + w.length - 1) + 1 := by omega
    have ht2 : ((s : Int)).toNat = s := by omega
    rw [ht1, ht2, htake]
    exact List.drop_left' (by
      rw [List.length_take_of_le (by omega : s ≤ text.length)])
  show (⟨jsSubstring text
      (((s + w.length - 1 : Nat) : Int) -
        lenAt (buildTrie dict) (codePointsOf w) + 1)
      (((s + w.length - 1 : Nat) : Int) + 1),
    ((s + w.length - 1 : Nat) : Int) -
      lenAt (buildTrie dict) (codePointsOf w) + 1,
    s + w.length - 1⟩ : Match) = ⟨w, (s : Int), s + w.length - 1⟩
  rw [hword, hstart]

end SWF

namespace SWF

/-- C2 witness: dictionary {"ab"}, text "xab", occurrence at offset 1. -/
theorem exact_no_false_negatives_witness :
    (⟨[97, 98], ((1 : Nat) : Int), 1 + ([97, 98] : List Nat).length - 1⟩ :
      Match) ∈ findSensitiveWords (buildTrie [[97, 98]]) [120, 97, 98] :=
  exact_no_false_negatives [[97, 98]] [120, 97, 98] (by decide) (by decide)
    [97, 98] (by decide) (by decide) 1 (by decide) (by decide)

/-- Among terminal nodes, a proper suffix stores a strictly smaller word
length: the stored length is the unit length of the word spelled by the
path, and every character of a path contributes at least one unit. -/
theorem lenAt_strict (dict : List (List Nat)) {q1 q2 : List (List Nat)}
    (h1 : endAt (buildTrie dict) q1 = true)
    (h2 : endAt (buildTrie dict) q2 = true)
    (hs : q2 <:+ q1) (hlt : q2.length < q1.length) :
    lenAt (buildTrie dict) q2 < lenAt (buildTrie dict) q1 := by
  obtain ⟨w1, hw1, hc1, hl1⟩ :=
    lenAt_buildTrie dict q1 ((endAt_buildTrie dict q1).mp h1)
  obtain ⟨w2, hw2, hc2, hl2⟩ :=
    lenAt_buildTrie dict q2 ((endAt_buildTrie dict q2).mp h2)
  rw [hl1, hl2]
  have hf1 : w1 = q1.flatten := by rw [← hc1, codePointsOf_flatten]
  have hf2 : w2 = q2.flatten := by rw [← hc2, codePointsOf_flatten]
  obtain ⟨u, rfl⟩ := hs
  have hu0 : u ≠ [] := by
    rintro rfl
    simp at hlt
  have hne : ∀ x ∈ u, x ≠ [] := by
    intro x hx
    apply codePointsOf_ne_nil w1
    rw [hc1]
    exact List.mem_append.mpr (Or.inl hx)
  have hfu : u.flatten ≠ [] := by
    cases u with
    | nil => exact absurd rfl hu0
    | cons x u' =>
        intro hcontra
        rw [List.flatten_cons] at hcontra
        exact hne x (by simp) (List.append_eq_nil.mp hcontra).1
  rw [hf1, hf2, List.flatten_append, List.length_append]
  have := List.length_pos.mpr hfu
  omega

/-- C4: the exact scanner reports matches in scan order — the end
positions are non-decreasing — and among matches with the same end
position the longer matched word (the smaller `start`) comes first. -/
theorem exact_match_order (dict : List (List Nat)) (text : List Nat) :
    (findSensitiveWords (buildTrie dict) text).Pairwise
      (fun m1 m2 => m1.endPos ≤ m2.endPos ∧
        (m1.endPos = m2.endPos → m1.start < m2.start)) := by
  unfold findSensitiveWords
  have hall : ∀ x ∈ scanGo (buildTrie dict) (codePointsOf text) [] 0,
      endAt (buildTrie dict) x.2 = true := by
    intro x hx
    obtain ⟨n, -, -, -, -, he, -⟩ :=
      (scanGo_mem_root _ _ x.1 x.2).mp (by simpa using hx)
    exact he
  have hpw := scanGo_pairwise (buildTrie dict) (codePointsOf text) [] 0
  have hpw2 : (scanGo (buildTrie dict) (codePointsOf text) [] 0).Pairwise
      (fun a b => a.1 < b.1 ∨ (a.1 = b.1 ∧
        lenAt (buildTrie dict) b.2 < lenAt (buildTrie dict) a.2)) := by
    refine List.Pairwise.imp_of_mem ?_ hpw
    intro a b ha hb hr
    rcases hr with h | ⟨heq, hsuf, hlt⟩
    · exact Or.inl h
    · exact Or.inr ⟨heq, lenAt_strict dict (hall a ha) (hall b hb) hsuf hlt⟩
  refine hpw2.map _ ?_
  intro a b hS
  rcases hS with h | ⟨heq, hlt⟩
  · refine ⟨?_, ?_⟩
    · show a.1 ≤ b.1
      omega
    · intro he
      have : a.1 = b.1 := he
      omega
  · refine ⟨?_, ?_⟩
    · show a.1 ≤ b.1
      omega
    · intro he
      show (a.1 : Int) - lenAt (buildTrie dict) a.2 + 1 <
        (b.1 : Int) - lenAt (buildTrie dict) b.2 + 1
      omega

end SWF

namespace SWF

/-! ### Fuzzy scanner: candidate scans, consumption, traces -/

theorem fuzzyFromF_some (t : Trie (List Nat)) (text : List Nat) (k : Int) :
    ∀ (fuel : Nat) (p : List (List Nat)) (pend skipped j e : Nat),
      fuzzyFromF t text k fuel p pend skipped j = some e →
      j ≤ e ∧ e < text.length
  | 0, p, pend, skipped, j, e => by simp [fuzzyFromF]
  | fuel + 1, p, pend, skipped, j, e => fun h => by
      rw [fuzzyFromF] at h
      cases hg : text.get? j with
      | none => rw [hg] at h; simp at h
      | some u =>
          simp only [hg] at h
          have hj : j < text.length := by
            have := List.get?_eq_some.mp hg
            exact this.1
          by_cases hc : hasChild t p [u]
          · rw [if_pos hc] at h
            by_cases he : endAt t (p ++ [[u]])
            · rw [if_pos he] at h
              obtain rfl : j = e := by simpa using h
              exact ⟨le_rfl, hj⟩
            · rw [if_neg he] at h
              have := fuzzyFromF_some t text k fuel _ _ _ _ _ h
              omega
          · rw [if_neg hc] at h
            by_cases hs : p ≠ [] ∧ (skipped : Int) < k
            · rw [if_pos hs] at h
              have := fuzzyFromF_some t text k fuel _ _ _ _ _ h
              omega
            · rw [if_neg hs] at h
              simp at h

theorem markRangeAux_length (a b : Nat) :
    ∀ (c : List Bool) (k0 : Nat), (markRangeAux c k0 a b).length = c.length
  | [], _ => rfl
  | x :: c, k0 => by simp [markRangeAux, markRangeAux_length a b c (k0 + 1)]

theorem markRangeAux_getD (a b : Nat) :
    ∀ (c : List Bool) (k0 s : Nat),
      (markRangeAux c k0 a b).getD s false =
        if a ≤ k0 + s ∧ k0 + s ≤ b ∧ s < c.length then true
        else c.getD s false
  | [], k0, s => by simp [markRangeAux]
  | x :: c, k0, 0 => by
      simp only [markRangeAux, List.getD_cons_zero, Nat.add_zero,
        List.length_cons]
      by_cases h : a ≤ k0 ∧ k0 ≤ b
      · rw [if_pos h, if_pos ⟨h.1, h.2, by omega⟩]
      · rw [if_neg h, if_neg (by omega)]
  | x :: c, k0, s + 1 => by
      simp only [markRangeAux, List.getD_cons_succ, List.length_cons]
      rw [markRangeAux_getD a b c (k0 + 1) s]
      by_cases h : a ≤ k0 + 1 + s ∧ k0 + 1 + s ≤ b ∧ s < c.length
      · rw [if_pos h, if_pos (by omega)]
      · rw [if_neg h, if_neg (by omega)]

/-- Every match of the fuzzy outer loop comes from an accepted candidate
scan at an unconsumed start at or after the loop position. -/
theorem fuzzyOuterF_mem (t : Trie (List Nat)) (text : List Nat) (k : Int) :
    ∀ (fuel : Nat) (consumed : List Bool) (i : Nat) (m : Match),
      m ∈ fuzzyOuterF t text k fuel consumed i →
      ∃ (s e : Nat),
        m = ⟨jsSubstring text (s : Int) ((e : Int) + 1), (s : Int), e⟩ ∧
        fuzzyFrom t text k s = some e ∧ i ≤ s ∧
        consumed.getD s false = false
  | 0, consumed, i, m => by simp [fuzzyOuterF]
  | fuel + 1, consumed, i, m => fun h => by
      rw [fuzzyOuterF] at h
      by_cases hit : i < text.length
      · rw [if_pos hit] at h
        by_cases hcons : consumed.getD i false
        · rw [if_pos hcons] at h
          obtain ⟨s, e, h1, h2, h3, h4⟩ := fuzzyOuterF_mem t text k fuel _ _ m h
          exact ⟨s, e, h1, h2, by omega, h4⟩
        · rw [if_neg hcons] at h
          cases hf : fuzzyFrom t text k i with
          | some e =>
              rw [hf] at h
              rcases List.mem_cons.mp h with rfl | h'
              · exact ⟨i, e, rfl, hf, le_rfl, by simpa using hcons⟩
              · obtain ⟨s, e', h1, h2, h3, h4⟩ :=
                  fuzzyOuterF_mem t text k fuel _ _ m h'
                refine ⟨s, e', h1, h2, by omega, ?_⟩
                rw [markRange] at h4
                rw [markRangeAux_getD] at h4
                by_cases hin : i ≤ 0 + s ∧ 0 + s ≤ e ∧ s < consumed.length
                · rw [if_pos hin] at h4
                  simp at h4
                · rw [if_neg hin] at h4
                  exact h4
          | none =>
              rw [hf] at h
              obtain ⟨s, e, h1, h2, h3, h4⟩ := fuzzyOuterF_mem t text k fuel _ _ m h
              exact ⟨s, e, h1, h2, by omega, h4⟩
      · rw [if_neg hit] at h
        simp at h

/-- Matches of the fuzzy outer loop are reported left to right and their
spans are separated: each match ends strictly before the next one starts. -/
theorem fuzzyOuterF_pairwise (t : Trie (List Nat)) (text : List Nat) (k : Int) :
    ∀ (fuel : Nat) (consumed : List Bool) (i : Nat),
      consumed.length = text.length →
      (fuzzyOuterF t text k fuel consumed i).Pairwise
        (fun m1 m2 => (m1.endPos : Int) < m2.start)
  | 0, consumed, i, _ => by simp [fuzzyOuterF]
  | fuel + 1, consumed, i, hlen => by
      rw [fuzzyOuterF]
      by_cases hit : i < text.length
      · rw [if_pos hit]
        by_cases hcons : consumed.getD i false
        · rw [if_pos hcons]
          exact fuzzyOuterF_pairwise t text k fuel _ _ hlen
        · rw [if_neg hcons]
          cases hf : fuzzyFrom t text k i with
          | some e =>
              apply List.pairwise_cons.mpr
              constructor
              · intro m2 hm2
                obtain ⟨s, e', h1, h2, h3, h4⟩ :=
                  fuzzyOuterF_mem t text k fuel _ _ m2 hm2
                rw [markRange, markRangeAux_getD] at h4
                have hse : s ≤ e' ∧ e' < text.length :=
                  fuzzyFromF_some t text k _ _ _ _ _ _ h2
                have hsl : s < consumed.length := by omega
                have : ¬(i ≤ 0 + s ∧ 0 + s ≤ e ∧ s < consumed.length) := by
                  intro hin
                  rw [if_pos hin] at h4
                  simp at h4
                have hes : e < s := by omega
                rw [h1]
                show (e : Int) < (s : Int)
                omega
              · exact fuzzyOuterF_pairwise t text k fuel _ _
                  (by rw [markRange, markRangeAux_length, hlen])
          | none => exact fuzzyOuterF_pairwise t text k fuel _ _ hlen
      · rw [if_neg hit]
        simp

end SWF

namespace SWF

/-- C5: no two spans returned by the fuzzy scanner intersect. -/
theorem fuzzy_no_overlap (dict : List (List Nat)) (text : List Nat)
    (k : Int) (_hk : 0 ≤ k) :
    (findSensitiveWordsFuzzy (buildTrie dict) text k).Pairwise
      (fun m1 m2 => ∀ x : Int, ¬(m1.start ≤ x ∧ x ≤ (m1.endPos : Int) ∧
        m2.start ≤ x ∧ x ≤ (m2.endPos : Int))) := by
  have h := fuzzyOuterF_pairwise (buildTrie dict) text k text.length
    (List.replicate text.length false) 0 (by simp)
  refine h.imp ?_
  intro m1 m2 hlt x
  rintro ⟨h1, h2, h3, h4⟩
  omega

/-- C5 witness: dictionary {"ab"}, text "abab", `maxSkip = 0` — two
separated matches. -/
theorem fuzzy_no_overlap_witness :
    (findSensitiveWordsFuzzy (buildTrie [[97, 98]]) [97, 98, 97, 98]
        0).Pairwise
      (fun m1 m2 => ∀ x : Int, ¬(m1.start ≤ x ∧ x ≤ (m1.endPos : Int) ∧
        m2.start ≤ x ∧ x ≤ (m2.endPos : Int))) ∧
    findSensitiveWordsFuzzy (buildTrie [[97, 98]]) [97, 98, 97, 98] 0 =
      [⟨[97, 98], 0, 1⟩, ⟨[97, 98], 2, 3⟩] :=
  ⟨fuzzy_no_overlap [[97, 98]] [97, 98, 97, 98] 0 (by decide), by decide⟩

/-- The instrumented candidate scan only ever extends its accumulator. -/
theorem fuzzyFromTF_extends (t : Trie (List Nat)) (text : List Nat) (k : Int) :
    ∀ (fuel : Nat) (p : List (List Nat)) (pend skipped j : Nat)
      (ms ps : List Nat),
      fuzzyFromTF t text k fuel p pend skipped j ms = some ps →
      ∃ tl, ps = ms ++ tl
  | 0, p, pend, skipped, j, ms, ps => by simp [fuzzyFromTF]
  | fuel + 1, p, pend, skipped, j, ms, ps => fun h => by
      rw [fuzzyFromTF] at h
      cases hg : text.get? j with
      | none => rw [hg] at h; simp at h
      | some u =>
          simp only [hg] at h
          by_cases hc : hasChild t p [u]
          · rw [if_pos hc] at h
            by_cases he : endAt t (p ++ [[u]])
            · rw [if_pos he] at h
              exact ⟨[j], by simpa using h.symm⟩
            · rw [if_neg he] at h
              obtain ⟨tl, rfl⟩ := fuzzyFromTF_extends t text k fuel _ _ _ _ _ _ h
              exact ⟨[j] ++ tl, by simp⟩
          · rw [if_neg hc] at h
            by_cases hs : p ≠ [] ∧ (skipped : Int) < k
            · rw [if_pos hs] at h
              exact fuzzyFromTF_extends t text k fuel _ _ _ _ _ _ h
            · rw [if_neg hs] at h
              simp at h

/-- The instrumented candidate scan accepts exactly when the plain one
does, its trace extends the accumulator, and the last recorded position
is the reported match end. -/
theorem fuzzyFromTF_spec (t : Trie (List Nat)) (text : List Nat) (k : Int) :
    ∀ (fuel : Nat) (p : List (List Nat)) (pend skipped j : Nat)
      (ms : List Nat) (e : Nat),
      fuzzyFromF t text k fuel p pend skipped j = some e →
      ∃ tl, tl ≠ [] ∧
        fuzzyFromTF t text k fuel p pend skipped j ms = some (ms ++ tl) ∧
        (ms ++ tl).getLast? = some e
  | 0, p, pend, skipped, j, ms, e => by simp [fuzzyFromF]
  | fuel + 1, p, pend, skipped, j, ms, e => fun h => by
      rw [fuzzyFromF] at h
      rw [fuzzyFromTF]
      cases hg : text.get? j with
      | none => rw [hg] at h; simp at h
      | some u =>
          simp only [hg] at h ⊢
          by_cases hc : hasChild t p [u]
          · rw [if_pos hc] at h ⊢
            by_cases he : endAt t (p ++ [[u]])
            · rw [if_pos he] at h ⊢
              obtain rfl : j = e := by simpa using h
              exact ⟨[j], by simp, rfl, by simp⟩
            · rw [if_neg he] at h ⊢
              obtain ⟨tl, htl0, htl, hlast⟩ :=
                fuzzyFromTF_spec t text k fuel _ _ _ _ (ms ++ [j]) _ h
              refine ⟨[j] ++ tl, by simp, ?_, ?_⟩
              · rw [htl]
                simp
              · rw [← List.append_assoc]
                exact hlast
          · rw [if_neg hc] at h ⊢
            by_cases hs : p ≠ [] ∧ (skipped : Int) < k
            · rw [if_pos hs] at h ⊢
              exact fuzzyFromTF_spec t text k fuel _ _ _ _ ms _ h
            · rw [if_neg hs] at h
              simp at h

/-- From an empty accumulator and the root, the first recorded position
is the start of the candidate scan. -/
theorem fuzzyFromTF_head (t : Trie (List Nat)) (text : List Nat) (k : Int)
    (fuel : Nat) (pend skipped j : Nat) (ps : List Nat)
    (h : fuzzyFromTF t text k fuel [] pend skipped j [] = some ps) :
    ps.head? = some j := by
  cases fuel with
  | zero => simp [fuzzyFromTF] at h
  | succ fuel =>
      rw [fuzzyFromTF] at h
      cases hg : text.get? j with
      | none => rw [hg] at h; simp at h
      | some u =>
          simp only [hg] at h
          by_cases hc : hasChild t [] [u]
          · rw [if_pos hc] at h
            by_cases he : endAt t ([] ++ [[u]])
            · rw [if_pos he] at h
              obtain rfl : [j] = ps := by simpa using h
              rfl
            · rw [if_neg he] at h
              obtain ⟨tl, rfl⟩ := fuzzyFromTF_extends t text k fuel _ _ _ _ _ _ h
              rfl
          · rw [if_neg hc] at h
            rw [if_neg (by simp)] at h
            simp at h

end SWF

namespace SWF

/-- Gap bound along a trace: between consecutive recorded (matched)
positions at most `maxSkip` positions were skipped. -/
theorem fuzzyFromTF_chain (t : Trie (List Nat)) (text : List Nat)
    (k : Int) (hk : 0 ≤ k) :
    ∀ (fuel : Nat) (p : List (List Nat)) (pend skipped j : Nat)
      (ms ps : List Nat),
      (skipped : Int) ≤ k →
      ms.Chain' (fun a b : Nat => (b : Int) ≤ (a : Int) + 1 + k) →
      (∀ a, ms.getLast? = some a → (j : Int) ≤ (a : Int) + 1 + skipped) →
      fuzzyFromTF t text k fuel p pend skipped j ms = some ps →
      ps.Chain' (fun a b : Nat => (b : Int) ≤ (a : Int) + 1 + k)
  | 0, p, pend, skipped, j, ms, ps => fun _ _ _ h => by
      simp [fuzzyFromTF] at h
  | fuel + 1, p, pend, skipped, j, ms, ps => fun hsk hch hlast h => by
      rw [fuzzyFromTF] at h
      cases hg : text.get? j with
      | none => rw [hg] at h; simp at h
      | some u =>
          simp only [hg] at h
          by_cases hc : hasChild t p [u]
          · rw [if_pos hc] at h
            have hch' : (ms ++ [j]).Chain'
                (fun a b : Nat => (b : Int) ≤ (a : Int) + 1 + k) := by
              apply List.chain'_append.mpr
              refine ⟨hch, List.chain'_singleton j, ?_⟩
              intro a ha b hb
              obtain rfl : j = b := by simpa using hb
              have := hlast a (Option.mem_def.mp ha)
              omega
            by_cases he : endAt t (p ++ [[u]])
            · rw [if_pos he] at h
              obtain rfl : ms ++ [j] = ps := by simpa using h
              exact hch'
            · rw [if_neg he] at h
              refine fuzzyFromTF_chain t text k hk fuel _ _ _ _ _ _
                (by omega) hch' ?_ h
              intro a ha
              rw [List.getLast?_concat] at ha
              obtain rfl : j = a := by simpa using ha
              push_cast
              omega
          · rw [if_neg hc] at h
            by_cases hs : p ≠ [] ∧ (skipped : Int) < k
            · rw [if_pos hs] at h
              refine fuzzyFromTF_chain t text k hk fuel _ _ _ _ _ _
                (by push_cast; omega) hch ?_ h
              intro a ha
              have := hlast a ha
              push_cast
              omega
            · rw [if_neg hs] at h
              simp at h

/-- C6: within each fuzzy match, between any two consecutive
automaton-matched characters (the recorded trace positions) at most
`maxSkip` text characters were skipped: consecutive trace positions `a`
and `b` satisfy `b ≤ a + 1 + maxSkip`. -/
theorem fuzzy_skip_bound (dict : List (List Nat)) (text : List Nat)
    (k : Int) (hk : 0 ≤ k) :
    ∀ m ∈ findSensitiveWordsFuzzy (buildTrie dict) text k,
      ∃ (s : Nat) (ps : List Nat), m.start = (s : Int) ∧
        fuzzyTrace (buildTrie dict) text k s = some ps ∧
        ps.Chain' (fun a b : Nat => (b : Int) ≤ (a : Int) + 1 + k) := by
  intro m hm
  obtain ⟨s, e, rfl, hf, -, -⟩ :=
    fuzzyOuterF_mem (buildTrie dict) text k text.length
      (List.replicate text.length false) 0 m hm
  obtain ⟨tl, htl0, htf, hlast⟩ :=
    fuzzyFromTF_spec (buildTrie dict) text k (text.length - s) [] s 0 s [] e hf
  refine ⟨s, [] ++ tl, rfl, htf, ?_⟩
  refine fuzzyFromTF_chain (buildTrie dict) text k hk (text.length - s)
    [] s 0 s [] ([] ++ tl) (by omega) (by simp) ?_ htf
  intro a ha
  simp at ha

/-- C6 witness: dictionary {"kill"}, text "k1i2l3l", `maxSkip = 1`. -/
theorem fuzzy_skip_bound_witness :
    (∀ m ∈ findSensitiveWordsFuzzy (buildTrie [[107, 105, 108, 108]])
        [107, 49, 105, 50, 108, 51, 108] 1,
      ∃ (s : Nat) (ps : List Nat), m.start = (s : Int) ∧
        fuzzyTrace (buildTrie [[107, 105, 108, 108]])
          [107, 49, 105, 50, 108, 51, 108] 1 s = some ps ∧
        ps.Chain' (fun a b : Nat => (b : Int) ≤ (a : Int) + 1 + 1)) ∧
    findSensitiveWordsFuzzy (buildTrie [[107, 105, 108, 108]])
        [107, 49, 105, 50, 108, 51, 108] 1 =
      [⟨[107, 49, 105, 50, 108, 51, 108], 0, 6⟩] ∧
    fuzzyTrace (buildTrie [[107, 105, 108, 108]])
        [107, 49, 105, 50, 108, 51, 108] 1 0 = some [0, 2, 4, 6] :=
  ⟨fuzzy_skip_bound [[107, 105, 108, 108]]
      [107, 49, 105, 50, 108, 51, 108] 1 (by decide),
    by decide, by decide⟩

/-- C10: in each fuzzy match, the first and the last position of the
reported span are automaton-matched characters (the head and the last
of the trace): noise can only occur strictly inside the span. -/
theorem fuzzy_span_endpoints_matched (dict : List (List Nat))
    (text : List Nat) (k : Int) (_hk : 0 ≤ k) :
    ∀ m ∈ findSensitiveWordsFuzzy (buildTrie dict) text k,
      ∃ (s : Nat) (ps : List Nat), m.start = (s : Int) ∧
        fuzzyTrace (buildTrie dict) text k s = some ps ∧
        ps.head? = some s ∧ ps.getLast? = some m.endPos := by
  intro m hm
  obtain ⟨s, e, rfl, hf, -, -⟩ :=
    fuzzyOuterF_mem (buildTrie dict) text k text.length
      (List.replicate text.length false) 0 m hm
  obtain ⟨tl, htl0, htf, hlast⟩ :=
    fuzzyFromTF_spec (buildTrie dict) text k (text.length - s) [] s 0 s [] e hf
  exact ⟨s, [] ++ tl, rfl, htf, fuzzyFromTF_head _ text k _ s 0 s _ htf,
    hlast⟩

/-- C10 witness: dictionary {"kill"}, text "k1i2l3l", `maxSkip = 1`:
the single match spans 0..6 and its trace is [0, 2, 4, 6]. -/
theorem fuzzy_span_endpoints_matched_witness :
    (∀ m ∈ findSensitiveWordsFuzzy (buildTrie [[107, 105, 108, 108]])
        [107, 49, 105, 50, 108, 51, 108] 1,
      ∃ (s : Nat) (ps : List Nat), m.start = (s : Int) ∧
        fuzzyTrace (buildTrie [[107, 105, 108, 108]])
          [107, 49, 105, 50, 108, 51, 108] 1 s = some ps ∧
        ps.head? = some s ∧ ps.getLast? = some m.endPos) ∧
    findSensitiveWordsFuzzy (buildTrie [[107, 105, 108, 108]])
        [107, 49, 105, 50, 108, 51, 108] 1 =
      [⟨[107, 49, 105, 50, 108, 51, 108], 0, 6⟩] :=
  ⟨fuzzy_span_endpoints_matched [[107, 105, 108, 108]]
      [107, 49, 105, 50, 108, 51, 108] 1 (by decide), by decide⟩

end SWF

namespace SWF

/-- C3 counterexample: dictionary {U+1F600} (UTF-16 units
[55357, 56832]), text equal to that word.  The exact scanner returns
`start = -1` — not a 0-based code-point offset (the word spans code
points 0..0) — because the stored `word.length` is 2 UTF-16 units for a
1-code-point word; and the fuzzy scanner, which indexes the text by raw
code unit, finds no match at all even though the text is exactly the
dictionary word. -/
theorem scanner_codepoint_unit_cex :
    findSensitiveWords (buildTrie [[55357, 56832]]) [55357, 56832] =
      [⟨[55357], -1, 0⟩] ∧
    findSensitiveWordsFuzzy (buildTrie [[55357, 56832]]) [55357, 56832] 5 =
      [] := by
  decide

/-- C3 (amended): when the dictionary words and the text contain no
high-surrogate code units — so one code point is one code unit and the
two notions of offset and length coincide — the exact scanner's `start`
and `end` are inclusive 0-based character offsets with
`end < number of code points of the text` and the word field spans
exactly `end - start + 1` characters; the stored word length equals the
word's code-point count; and every fuzzy match satisfies
`word = text.substring(start, end + 1)` with
`0 ≤ start ≤ end < text.length`. -/
theorem scanner_codepoint_units (dict : List (List Nat)) (text : List Nat)
    (k : Int) (hD : ∀ w ∈ dict, NoSurr w) (hT : NoSurr text) :
    (∀ m ∈ findSensitiveWords (buildTrie dict) text,
       0 ≤ m.start ∧ m.start ≤ (m.endPos : Int) ∧
         m.endPos < (codePointsOf text).length ∧
         (m.word.length : Int) = (m.endPos : Int) - m.start + 1) ∧
    (∀ w ∈ dict,
       lenAt (buildTrie dict) (codePointsOf w) = (codePointsOf w).length) ∧
    (∀ m ∈ findSensitiveWordsFuzzy (buildTrie dict) text k,
       m.word = jsSubstring text m.start ((m.endPos : Int) + 1) ∧
         0 ≤ m.start ∧ m.start ≤ (m.endPos : Int) ∧
         m.endPos < text.length) := by
  refine ⟨?_, ?_, ?_⟩
  · intro m hm
    obtain ⟨w, i, hw, hw0, hit, hwl, he, hs, hword, hsuf⟩ :=
      exact_emission_spec dict text hD hT m hm
    have hw1 : 1 ≤ w.length := List.length_pos.mpr hw0
    have hcl : (codePointsOf text).length = text.length := by
      rw [codePointsOf_noSurr text hT, List.length_map]
    refine ⟨by rw [hs]; omega, by rw [hs, he]; omega, by omega, ?_⟩
    rw [hword, hs, he]
    omega
  · intro w hw
    obtain ⟨w', hw', hcw', hlen⟩ :=
      lenAt_buildTrie dict (codePointsOf w) ⟨w, hw, rfl⟩
    rw [hlen, codePointsOf_inj hcw', codePointsOf_noSurr w (hD w hw),
      List.length_map]
  · intro m hm
    obtain ⟨s, e, rfl, hf, -, -⟩ :=
      fuzzyOuterF_mem (buildTrie dict) text k text.length
        (List.replicate text.length false) 0 m hm
    have hse := fuzzyFromF_some (buildTrie dict) text k _ _ _ _ _ _ hf
    refine ⟨rfl, ?_, ?_, ?_⟩
    · show (0 : Int) ≤ (s : Int)
      omega
    · show (s : Int) ≤ (e : Int)
      omega
    · show e < text.length
      omega

/-- C3 witness: dictionary {"ab"}, text "xab", `maxSkip = 1`. -/
theorem scanner_codepoint_units_witness :
    ((∀ m ∈ findSensitiveWords (buildTrie [[97, 98]]) [120, 97, 98],
       0 ≤ m.start ∧ m.start ≤ (m.endPos : Int) ∧
         m.endPos < (codePointsOf [120, 97, 98]).length ∧
         (m.word.length : Int) = (m.endPos : Int) - m.start + 1) ∧
    (∀ w ∈ ([[97, 98]] : List (List Nat)),
       lenAt (buildTrie [[97, 98]]) (codePointsOf w) =
         (codePointsOf w).length) ∧
    (∀ m ∈ findSensitiveWordsFuzzy (buildTrie [[97, 98]]) [120, 97, 98] 1,
       m.word = jsSubstring [120, 97, 98] m.start ((m.endPos : Int) + 1) ∧
         0 ≤ m.start ∧ m.start ≤ (m.endPos : Int) ∧
         m.endPos < ([120, 97, 98] : List Nat).length)) ∧
    findSensitiveWordsFuzzy (buildTrie [[97, 98]]) [120, 97, 98] 1 =
      [⟨[97, 98], 1, 2⟩] :=
  ⟨scanner_codepoint_units [[97, 98]] [120, 97, 98] 1 (by decide) (by decide),
    by decide⟩

end SWF
